import Mathlib

/-!
Verification development for the `auto-update-mmdb` updater (src/main.go).

The program downloads the latest GeoLite2 country database, iterates all
networks, keeps those whose country ISO code is exactly "CN", classifies
them as IPv4 or IPv6 by `ipNet.IP.To4() != nil`, and serializes the two
lists into nftables set files.

The development shallowly embeds:
  * the relevant Go standard-library string functions that main.go calls:
    `net.ParseCIDR`, `net.IPNet.String`, `net.IP.String`, `net.IP.To4`,
    `net.IP.Mask`, `net.CIDRMask`, `path/filepath.Ext` (bytes are `Nat`s,
    strings are Lean `String`s);
  * the extraction loop over database entries (each entry is the outcome
    of one `networks.Network(&rec)` step: a decode error, or a network
    plus an ISO country code);
  * `writeSetFile`'s text construction;
  * `main`'s stage sequence as a function from the outcomes of the
    external calls (HTTP, filesystem, exec) to an event trace, an exit
    code, and the written file contents.  `os.Exit` terminates without
    running deferred closes, which the trace makes visible.
-/

/-! ## Characters and digits (Go `uitoa`, `appendHex`, `dtoi`, `xtoi`) -/

/-- Decimal digit test, as Go's `'0' <= c && c <= '9'`. -/
def isDigitC (c : Char) : Bool :=
  decide ('0' ≤ c) && decide (c ≤ '9')

/-- Hex digit test, as Go's `xtoi` accepts: `0-9`, `a-f`, `A-F`. -/
def isHexC (c : Char) : Bool :=
  isDigitC c || (decide ('a' ≤ c) && decide (c ≤ 'f')) ||
    (decide ('A' ≤ c) && decide (c ≤ 'F'))

/-- Value of a decimal digit character. -/
def digitVal (c : Char) : Nat := c.toNat - 48

/-- Value of a hex digit character, as Go's `xtoi`. -/
def hexVal (c : Char) : Nat :=
  if isDigitC c then c.toNat - 48
  else if decide ('a' ≤ c) && decide (c ≤ 'f') then c.toNat - 87
  else c.toNat - 55

/-- Digit-to-character, lower case for hex, as Go's `hexDigit` table and
`uitoa`. -/
def digitChar (d : Nat) : Char :=
  if d < 10 then Char.ofNat (48 + d) else Char.ofNat (87 + d)

/-- Digits of `n` in base `base`, least significant first, by structural
recursion on a fuel argument so that the kernel can evaluate it. -/
def digitsRevAux (base : Nat) : Nat → Nat → List Nat
  | 0, _ => []
  | f + 1, n => if n = 0 then [] else n % base :: digitsRevAux base f (n / base)

/-- Digits of `n` in base `base`, least significant first. -/
def digitsRev (base n : Nat) : List Nat := digitsRevAux base n n

/-- The decimal/hex text of `n`, as Go's `uitoa` (base 10) and
`appendHex` (base 16): most significant digit first, no leading zeros,
`"0"` for zero. -/
def natChars (base n : Nat) : List Char :=
  if n = 0 then ['0'] else ((digitsRev base n).map digitChar).reverse

theorem digitsRevAux_eq_digits (base : Nat) (hb : 1 < base) :
    ∀ fuel n, n ≤ fuel → digitsRevAux base fuel n = Nat.digits base n := by
  intro fuel
  induction fuel with
  | zero =>
    intro n hn
    have : n = 0 := Nat.le_zero.mp hn
    subst this
    simp [digitsRevAux]
  | succ f ih =>
    intro n hn
    by_cases h0 : n = 0
    · subst h0; simp [digitsRevAux]
    · have hpos : 0 < n := Nat.pos_of_ne_zero h0
      have hdiv : n / base < n := Nat.div_lt_self hpos hb
      have hle : n / base ≤ f := Nat.le_of_lt_succ (Nat.lt_of_lt_of_le hdiv hn)
      rw [digitsRevAux, if_neg h0, ih _ hle, Nat.digits_def' hb hpos]

theorem digitsRev_eq_digits (base n : Nat) (hb : 1 < base) :
    digitsRev base n = Nat.digits base n :=
  digitsRevAux_eq_digits base hb n n (Nat.le_refl n)

theorem digitVal_digitChar : ∀ d, d < 10 → digitVal (digitChar d) = d := by decide

theorem hexVal_digitChar : ∀ d, d < 16 → hexVal (digitChar d) = d := by decide

theorem isDigitC_digitChar : ∀ d, d < 10 → isDigitC (digitChar d) = true := by decide

theorem isHexC_digitChar : ∀ d, d < 16 → isHexC (digitChar d) = true := by decide

/-- Fold a digit list (most significant first) into a value, the way the
parsers accumulate `acc = acc * base + digit`. -/
theorem foldl_digits_value (base : Nat) (v : Char → Nat)
    (hv : ∀ d, d < base → v (digitChar d) = d) :
    ∀ L : List Nat, (∀ d ∈ L, d < base) →
      ((L.map digitChar).reverse.foldl (fun a c => a * base + v c) 0 = Nat.ofDigits base L) := by
  intro L hL
  rw [List.foldl_reverse]
  induction L with
  | nil => simp [Nat.ofDigits]
  | cons d t ih =>
    have hd : d < base := hL d (List.mem_cons_self d t)
    have ht : ∀ x ∈ t, x < base := fun x hx => hL x (List.mem_cons_of_mem d hx)
    simp only [List.map_cons, List.foldr_cons, Nat.ofDigits_cons, ih ht, hv d hd]
    ring

/-- Round trip for printed numerals: folding the printed characters of
`n` back with `acc * base + value` recovers `n`. -/
theorem natChars_foldl (base n : Nat) (v : Char → Nat)
    (hv : ∀ d, d < base → v (digitChar d) = d) (hb : 1 < base) :
    (natChars base n).foldl (fun a c => a * base + v c) 0 = n := by
  unfold natChars
  by_cases h0 : n = 0
  · subst h0
    have : v '0' = 0 := by
      have := hv 0 (by omega)
      simpa [digitChar] using this
    simp [this]
  · rw [if_neg h0, digitsRev_eq_digits base n hb,
      foldl_digits_value base v hv _ (fun d hd => Nat.digits_lt_base hb hd),
      Nat.ofDigits_digits]

/-- Every character of a printed numeral is `digitChar d` for some digit
`d < base` (for positive bases; zero prints as `'0'`). -/
theorem natChars_mem (base n : Nat) (hb : 1 < base) :
    ∀ c ∈ natChars base n, ∃ d, d < base ∧ c = digitChar d := by
  intro c hc
  unfold natChars at hc
  by_cases h0 : n = 0
  · subst h0
    simp at hc
    exact ⟨0, by omega, by simp [hc, digitChar]⟩
  · rw [if_neg h0, digitsRev_eq_digits base n hb, List.mem_reverse] at hc
    obtain ⟨d, hd, rfl⟩ := List.mem_map.mp hc
    exact ⟨d, Nat.digits_lt_base hb hd, rfl⟩

theorem natChars_ne_nil (base n : Nat) (hb : 1 < base) : natChars base n ≠ [] := by
  unfold natChars
  by_cases h0 : n = 0
  · subst h0; simp
  · rw [if_neg h0]
    simp only [ne_eq, List.reverse_eq_nil_iff, List.map_eq_nil_iff]
    rw [digitsRev_eq_digits base n hb]
    exact Nat.digits_ne_nil_iff_ne_zero.mpr h0

theorem digitChar_ne_zero_char : ∀ d, d < 10 → d ≠ 0 → digitChar d ≠ '0' := by decide

/-- The first printed character of a multi-character decimal numeral is
not `'0'`: the most significant digit of a positive number is nonzero.
(This is what lets re-parsing reject leading zeros without rejecting the
printer's own output.) -/
theorem natChars_head_ne_zero (n : Nat)
    (hlen : 1 < (natChars 10 n).length) :
    (natChars 10 n).headD '#' ≠ '0' := by
  have hb : (1:Nat) < 10 := by norm_num
  have h0 : n ≠ 0 := by
    intro h; subst h
    simp [natChars] at hlen
  unfold natChars
  rw [if_neg h0, digitsRev_eq_digits 10 n hb]
  have hne : Nat.digits 10 n ≠ [] := Nat.digits_ne_nil_iff_ne_zero.mpr h0
  have hlast := Nat.getLast_digit_ne_zero (m := n) 10 h0
  rw [List.headD_eq_head?_getD, List.head?_reverse, List.getLast?_map,
    List.getLast?_eq_getLast _ hne]
  simp only [Option.map_some', Option.getD_some]
  exact digitChar_ne_zero_char _
    (Nat.digits_lt_base hb (List.getLast_mem hne)) hlast

/-! ## List-of-character splitting

Go scans byte strings with `IndexByte` and explicit loops; the token
views below are the corresponding decompositions. -/

/-- Split a character list at every occurrence of `c` (the separator is
dropped; empty tokens are kept), as Go's field-by-field scans over `'.'`
and `':'`. -/
def splitOnChar (c : Char) : List Char → List (List Char)
  | [] => [[]]
  | x :: xs =>
    if x = c then [] :: splitOnChar c xs
    else
      match splitOnChar c xs with
      | t :: ts => (x :: t) :: ts
      | [] => [[x]]

/-- Split at the first occurrence of `c`, as Go's `IndexByte`-based
splits: `none` when `c` does not occur. -/
def breakAtChar (c : Char) : List Char → Option (List Char × List Char)
  | [] => none
  | x :: xs =>
    if x = c then some ([], xs)
    else (breakAtChar c xs).map (fun p => (x :: p.1, p.2))

theorem splitOnChar_ne_nil (c : Char) (cs : List Char) : splitOnChar c cs ≠ [] := by
  induction cs with
  | nil => simp [splitOnChar]
  | cons x xs ih =>
    unfold splitOnChar
    by_cases h : x = c
    · simp [h]
    · rw [if_neg h]
      match hm : splitOnChar c xs with
      | [] => simp
      | t :: ts => simp

/-- A separator-free list is a single token. -/
theorem splitOnChar_of_not_mem (c : Char) (t : List Char) (hct : c ∉ t) :
    splitOnChar c t = [t] := by
  induction t with
  | nil => simp [splitOnChar]
  | cons x xs ih =>
    have hx : x ≠ c := fun h => hct (h ▸ List.mem_cons_self x xs)
    have hxs : c ∉ xs := fun h => hct (List.mem_cons_of_mem x h)
    unfold splitOnChar
    rw [if_neg hx, ih hxs]

/-- Splitting peels off a leading separator-free token. -/
theorem splitOnChar_append (c : Char) (t rest : List Char) (hct : c ∉ t) :
    splitOnChar c (t ++ c :: rest) = t :: splitOnChar c rest := by
  induction t with
  | nil =>
    simp only [List.nil_append]
    conv_lhs => rw [splitOnChar]
    rw [if_pos rfl]
  | cons x xs ih =>
    have hx : x ≠ c := fun h => hct (h ▸ List.mem_cons_self x xs)
    have hxs : c ∉ xs := fun h => hct (List.mem_cons_of_mem x h)
    rw [List.cons_append]
    conv_lhs => rw [splitOnChar]
    rw [if_neg hx, ih hxs]

/-- `splitOnChar` of an interleaving of separator-free tokens recovers
the tokens. -/
theorem splitOnChar_intercalate (c : Char) :
    ∀ parts : List (List Char), parts ≠ [] →
      (∀ t ∈ parts, c ∉ t) →
      splitOnChar c (List.intercalate [c] parts) = parts := by
  intro parts
  induction parts with
  | nil => intro h; exact absurd rfl h
  | cons t ts ih =>
    intro _ hfree
    have hct : c ∉ t := hfree t (List.mem_cons_self t ts)
    match ts with
    | [] =>
      simp only [List.intercalate, List.intersperse_singleton, List.flatten,
        List.append_nil]
      exact splitOnChar_of_not_mem c t hct
    | u :: us =>
      have hrest : splitOnChar c (List.intercalate [c] (u :: us)) = u :: us :=
        ih (by simp) (fun s hs => hfree s (List.mem_cons_of_mem t hs))
      have hint : List.intercalate [c] (t :: u :: us) =
          t ++ c :: List.intercalate [c] (u :: us) := by
        simp [List.intercalate, List.intersperse]
      rw [hint, splitOnChar_append c t _ hct, hrest]

/-- Every character of the original list is a separator or sits in one
of the tokens. -/
theorem mem_of_splitOnChar (c x : Char) (cs : List Char) (hx : x ∈ cs) :
    x = c ∨ ∃ t ∈ splitOnChar c cs, x ∈ t := by
  induction cs with
  | nil => simp at hx
  | cons y ys ih =>
    unfold splitOnChar
    by_cases hy : y = c
    · rw [if_pos hy]
      rcases List.mem_cons.mp hx with hxy | hxys
      · exact Or.inl (hxy.trans hy)
      · rcases ih hxys with h | ⟨t, ht, hxt⟩
        · exact Or.inl h
        · exact Or.inr ⟨t, List.mem_cons_of_mem _ ht, hxt⟩
    · rw [if_neg hy]
      match hm : splitOnChar c ys with
      | [] => exact absurd hm (splitOnChar_ne_nil c ys)
      | t :: ts =>
        rcases List.mem_cons.mp hx with hxy | hxys
        · exact Or.inr ⟨y :: t, List.mem_cons_self _ _, hxy ▸ List.mem_cons_self x _⟩
        · rcases ih hxys with h | ⟨t', ht', hxt'⟩
          · exact Or.inl h
          · rw [hm] at ht'
            rcases List.mem_cons.mp ht' with rfl | htts
            · exact Or.inr ⟨y :: t', List.mem_cons_self _ _, List.mem_cons_of_mem _ hxt'⟩
            · exact Or.inr ⟨t', List.mem_cons_of_mem _ htts, hxt'⟩

/-! ## Numeral parsing (Go `dtoi` / `xtoi` as used by the IP parsers) -/

/-- Accumulated value of a decimal digit string. -/
def decValue (cs : List Char) : Nat := cs.foldl (fun a c => a * 10 + digitVal c) 0

/-- Accumulated value of a hex digit string. -/
def hexValue (cs : List Char) : Nat := cs.foldl (fun a c => a * 16 + hexVal c) 0

/-- One dotted-quad field, as Go `parseIPv4` checks it: nonempty, all
decimal digits, no leading zero (rejected since Go 1.17), value at most
255.  Go's `dtoi` caps the accumulator at `0xFFFFFF` and reports
failure; for digit-only fields that is equivalent to the value test. -/
def parseV4Field (t : List Char) : Option Nat :=
  if t.isEmpty then none
  else if !(t.all isDigitC) then none
  else if decide (1 < t.length) && (t.headD '#' == '0') then none
  else if decValue t ≤ 255 then some (decValue t) else none

/-- The `/prefix` part of a CIDR, as Go `ParseCIDR` checks it with
`dtoi`: nonempty and all decimal digits (leading zeros are accepted
here); the range check against the address width happens at the caller. -/
def parseDecAll (cs : List Char) : Option Nat :=
  if cs.isEmpty then none
  else if !(cs.all isDigitC) then none
  else some (decValue cs)

/-- One 16-bit group of an IPv6 address, as Go `parseIPv6` checks it
with `xtoi`: nonempty, all hex digits, value at most `0xFFFF`. -/
def parseHexGroup (t : List Char) : Option Nat :=
  if t.isEmpty then none
  else if !(t.all isHexC) then none
  else if hexValue t ≤ 65535 then some (hexValue t) else none

theorem decValue_natChars (n : Nat) : decValue (natChars 10 n) = n :=
  natChars_foldl 10 n digitVal digitVal_digitChar (by norm_num)

theorem hexValue_natChars (n : Nat) : hexValue (natChars 16 n) = n :=
  natChars_foldl 16 n hexVal hexVal_digitChar (by norm_num)

theorem natChars_all_digits (n : Nat) : (natChars 10 n).all isDigitC = true := by
  rw [List.all_eq_true]
  intro c hc
  obtain ⟨d, hd, rfl⟩ := natChars_mem 10 n (by norm_num) c hc
  exact isDigitC_digitChar d hd

theorem natChars_all_hex (n : Nat) : (natChars 16 n).all isHexC = true := by
  rw [List.all_eq_true]
  intro c hc
  obtain ⟨d, hd, rfl⟩ := natChars_mem 16 n (by norm_num) c hc
  exact isHexC_digitChar d hd

theorem digitChar_not_special :
    ∀ d, d < 16 → digitChar d ≠ ':' ∧ digitChar d ≠ '.' ∧ digitChar d ≠ '/' := by decide

theorem natChars_not_mem_special (base n : Nat) (hb : 1 < base) (hb16 : base ≤ 16) :
    ':' ∉ natChars base n ∧ '.' ∉ natChars base n ∧ '/' ∉ natChars base n := by
  refine ⟨fun h => ?_, fun h => ?_, fun h => ?_⟩
  · obtain ⟨d, hd, hc⟩ := natChars_mem base n hb _ h
    exact (digitChar_not_special d (Nat.lt_of_lt_of_le hd hb16)).1 hc.symm
  · obtain ⟨d, hd, hc⟩ := natChars_mem base n hb _ h
    exact (digitChar_not_special d (Nat.lt_of_lt_of_le hd hb16)).2.1 hc.symm
  · obtain ⟨d, hd, hc⟩ := natChars_mem base n hb _ h
    exact (digitChar_not_special d (Nat.lt_of_lt_of_le hd hb16)).2.2 hc.symm

/-- Round trip for a dotted-quad field. -/
theorem parseV4Field_natChars (n : Nat) (hn : n ≤ 255) :
    parseV4Field (natChars 10 n) = some n := by
  unfold parseV4Field
  rw [if_neg (by simpa [List.isEmpty_iff] using natChars_ne_nil 10 n (by norm_num))]
  rw [natChars_all_digits n]
  have hlead : (decide (1 < (natChars 10 n).length) && ((natChars 10 n).headD '#' == '0')) = false := by
    by_cases hl : 1 < (natChars 10 n).length
    · simp only [decide_eq_true hl, Bool.true_and]
      exact beq_eq_false_iff_ne.mpr (natChars_head_ne_zero n hl)
    · simp [hl]
  rw [Bool.not_true, if_neg (by simp), hlead]
  rw [if_neg (by simp), decValue_natChars, if_pos hn]

/-- Round trip for the prefix-length numeral. -/
theorem parseDecAll_natChars (n : Nat) :
    parseDecAll (natChars 10 n) = some n := by
  unfold parseDecAll
  rw [if_neg (by simpa [List.isEmpty_iff] using natChars_ne_nil 10 n (by norm_num))]
  rw [natChars_all_digits n, Bool.not_true, if_neg (by simp), decValue_natChars]

/-- Round trip for an IPv6 group numeral. -/
theorem parseHexGroup_natChars (n : Nat) (hn : n ≤ 65535) :
    parseHexGroup (natChars 16 n) = some n := by
  unfold parseHexGroup
  rw [if_neg (by simpa [List.isEmpty_iff] using natChars_ne_nil 16 n (by norm_num))]
  rw [natChars_all_hex n, Bool.not_true, if_neg (by simp), hexValue_natChars, if_pos hn]

/-! ## The Go `net` address model

Addresses and masks are byte lists (`List Nat`, each byte < 256 in any
value the functions construct). -/

/-- `net.IP.To4`: a 4-byte address is itself IPv4; a 16-byte address is
IPv4 exactly when it is IPv4-mapped (`::ffff:a.b.c.d`), in which case
the final four bytes are returned; otherwise Go returns `nil`. -/
def to4 (ip : List Nat) : Option (List Nat) :=
  if ip.length = 4 then some ip
  else if ip.length = 16 && (ip.take 10).all (fun b => b == 0)
      && (ip.getD 10 0 == 255) && (ip.getD 11 0 == 255) then
    some (ip.drop 12)
  else none

/-- Pair 16 bytes into eight 16-bit groups, high byte first (the view Go
uses when printing an IPv6 address). -/
def toGroups : List Nat → List Nat
  | a :: b :: t => (a * 256 + b) :: toGroups t
  | _ => []

/-- Expand 16-bit groups into bytes, as Go `parseIPv6` stores
`ip[i] = byte(n >> 8); ip[i+1] = byte(n)`. -/
def groupsToBytes (gs : List Nat) : List Nat :=
  gs.flatMap (fun g => [g / 256, g % 256])

/-- Dotted-quad text of four bytes, as Go `IP.String` prints IPv4. -/
def quadChars (q : List Nat) : List Char :=
  List.intercalate ['.'] (q.map (natChars 10))

/-- Length of the zero run at the head of a group list. -/
def zeroRunLen : List Nat → Nat
  | [] => 0
  | g :: t => if g = 0 then zeroRunLen t + 1 else 0

/-- Leftmost longest zero run `(start, length)` of a group list, the run
Go's `IP.String` finds with its `e0`/`e1` scan (runs of any positive
length compete; ties keep the leftmost; the caller discards runs shorter
than two groups). -/
def bestZeroRun : List Nat → Option (Nat × Nat)
  | [] => none
  | g :: t =>
    let l := zeroRunLen (g :: t)
    if h : l = 0 then (bestZeroRun t).map (fun p => (p.1 + 1, p.2))
    else
      match bestZeroRun ((g :: t).drop l) with
      | some p => if l < p.2 then some (p.1 + l, p.2) else some (0, l)
      | none => some (0, l)
  termination_by gs => gs.length
  decreasing_by
  · simp
  · simp only [List.length_drop, List.length_cons]
    omega

/-- The run Go elides when printing: the leftmost longest zero run, kept
only when at least two groups long (`e1-e0 <= 2` resets it in Go). -/
def elideRun (gs : List Nat) : Option (Nat × Nat) :=
  match bestZeroRun gs with
  | some p => if 2 ≤ p.2 then some p else none
  | none => none

/-- The colon-separated tokens of the printed IPv6 address: hex groups,
with the elided run contributing two adjacent colons (empty tokens). -/
def v6Tokens (gs : List Nat) : List (List Char) :=
  match elideRun gs with
  | none => gs.map (natChars 16)
  | some (s, l) =>
    let pre := (gs.take s).map (natChars 16)
    let post := (gs.drop (s + l)).map (natChars 16)
    (if pre.isEmpty then [[]] else pre) ++ [[]] ++ (if post.isEmpty then [[]] else post)

/-- RFC 5952 text of eight 16-bit groups, as Go `IP.String` prints a
16-byte address that is not IPv4-mapped. -/
def ipv6Chars (gs : List Nat) : List Char :=
  List.intercalate [':'] (v6Tokens gs)

/-- Two-digit hex of one byte (Go `hexString`, the fallback format). -/
def hexPad2 (b : Nat) : List Char := [digitChar (b / 16), digitChar (b % 16)]

/-- Hex of a byte string (Go `hexString`). -/
def bytesHexChars (bs : List Nat) : List Char := bs.flatMap hexPad2

/-- `net.IP.String`. -/
def ipString (ip : List Nat) : String :=
  if ip.length = 0 then "<nil>"
  else
    match to4 ip with
    | some q => String.mk (quadChars q)
    | none =>
      if ip.length = 16 then String.mk (ipv6Chars (toGroups ip))
      else String.mk ('?' :: bytesHexChars ip)

/-- `net.CIDRMask` body: `ones` leading one bits over `l` bytes;
`^byte(0xff >> n)` is `256 - 2^(8-n)`. -/
def cidrMaskAux : Nat → Nat → List Nat
  | _, 0 => []
  | n, l + 1 =>
    if 8 ≤ n then 255 :: cidrMaskAux (n - 8) l
    else (256 - 2 ^ (8 - n)) :: cidrMaskAux 0 l

/-- `net.CIDRMask ones bits`: defined only for 32- or 128-bit masks with
`ones ≤ bits`; Go returns `nil` (here `[]`) otherwise. -/
def cidrMask (ones bits : Nat) : List Nat :=
  if (bits = 32 || bits = 128) && ones ≤ bits then cidrMaskAux ones (bits / 8) else []

/-- Number of leading one bits of a byte whose remaining bits are all
zero; `none` for any other byte (the inner loops of Go
`simpleMaskLength`).  `255` is handled by the caller. -/
def byteOnes (v : Nat) : Option Nat :=
  if v = 0 then some 0
  else if v = 128 then some 1
  else if v = 192 then some 2
  else if v = 224 then some 3
  else if v = 240 then some 4
  else if v = 248 then some 5
  else if v = 252 then some 6
  else if v = 254 then some 7
  else none

/-- Go `simpleMaskLength`: the prefix size of a contiguous mask, `none`
(Go `-1`) when the mask is not of the form ones-then-zeros.  A `0xff`
byte adds 8 and continues; the first other byte must be
ones-then-zeros and every byte after it must be zero. -/
def simpleMaskLength : List Nat → Option Nat
  | [] => some 0
  | v :: t =>
    if v = 255 then (simpleMaskLength t).map (fun k => k + 8)
    else
      match byteOnes v with
      | some k => if t.all (fun b => b == 0) then some k else none
      | none => none

/-- Byte-wise AND.  (Go `IP.Mask` first aligns lengths — in `ParseCIDR`
the 16-byte IPv4-mapped address meets the 4-byte mask and is cut to its
last 4 bytes; the model's `parseCIDR` produces the 4 bytes directly, so
plain `zipWith` is the aligned AND.) -/
def andBytes (a m : List Nat) : List Nat := List.zipWith (fun x y => x &&& y) a m

/-- `net.IPNet`: a base address and a mask, both byte strings. -/
structure IPNet where
  ip : List Nat
  mask : List Nat
deriving DecidableEq

/-- `net.IPNet.String`, including `networkNumberAndMask`: the address is
shortened to 4 bytes when IPv4-mapped, a 16-byte mask over an IPv4
address drops its first 12 bytes, a non-contiguous mask prints in hex. -/
def ipNetString (n : IPNet) : String :=
  let ipOpt : Option (List Nat) :=
    match to4 n.ip with
    | some q => some q
    | none => if n.ip.length = 16 then some n.ip else none
  match ipOpt with
  | none => "<nil>"
  | some nn =>
    let mOpt : Option (List Nat) :=
      if n.mask.length = 4 then (if nn.length = 4 then some n.mask else none)
      else if n.mask.length = 16 then
        (if nn.length = 4 then some (n.mask.drop 12) else some n.mask)
      else none
    match mOpt with
    | none => "<nil>"
    | some m =>
      match simpleMaskLength m with
      | none => ipString nn ++ "/" ++ String.mk (bytesHexChars m)
      | some l => ipString nn ++ "/" ++ String.mk (natChars 10 l)

/-! ## The Go `net` parsers -/

/-- Traverse a list with a fallible parser, failing when any element
fails (the field-by-field loop shape of Go `parseIPv4`). -/
def mapOption {α β : Type} (f : α → Option β) : List α → Option (List β)
  | [] => some []
  | a :: t =>
    match f a, mapOption f t with
    | some b, some bs => some (b :: bs)
    | _, _ => none

/-- Go `parseIPv4`: four dot-separated fields. -/
def parseIPv4chars (cs : List Char) : Option (List Nat) :=
  let toks := splitOnChar '.' cs
  if toks.length = 4 then mapOption parseV4Field toks else none

/-- Parse a list of colon-separated tokens as 16-bit groups.  Only the
final token of the final (rightmost) segment may be an embedded dotted
quad (Go consumes the rest of the string with `parseIPv4` there), and it
yields two groups. -/
def parseGroupList : Bool → List (List Char) → Option (List Nat)
  | aV4, [t] =>
    if aV4 && t.contains '.' then
      (parseIPv4chars t).map (fun q =>
        [q.getD 0 0 * 256 + q.getD 1 0, q.getD 2 0 * 256 + q.getD 3 0])
    else (parseHexGroup t).map (fun g => [g])
  | aV4, t :: rest => do
    let g ← parseHexGroup t
    let gs ← parseGroupList aV4 rest
    some (g :: gs)
  | _, [] => some []

/-- First empty token, if any: the position of a `::` elision in the
token list. -/
def breakAtEmpty : List (List Char) → List (List Char) × Option (List (List Char))
  | [] => ([], none)
  | t :: ts =>
    if t.isEmpty then ([], some ts)
    else
      match breakAtEmpty ts with
      | (pre, rest) => (t :: pre, rest)

/-- Go `parseIPv6` on the token view of the address: at most one `::`
elision, which must stand for at least one group when eight groups are
already present; a leading or trailing single colon is an error. -/
def v6FromToks (toks : List (List Char)) : Option (List Nat) :=
  match toks with
  | [] => none
  | [] :: [] :: rest2 =>
    if rest2.isEmpty then none
    else if rest2 = [[]] then some (List.replicate 8 0)
    else do
      let gs ← parseGroupList true rest2
      if gs.length ≤ 7 then some (List.replicate (8 - gs.length) 0 ++ gs) else none
  | [] :: _ => none
  | _ =>
    match breakAtEmpty toks with
    | (pre, none) => do
      let gs ← parseGroupList true pre
      if gs.length = 8 then some gs else none
    | (pre, some post) =>
      if post = [[]] then do
        let gs ← parseGroupList false pre
        if gs.length ≤ 7 then some (gs ++ List.replicate (8 - gs.length) 0) else none
      else do
        let g1 ← parseGroupList false pre
        let g2 ← parseGroupList true post
        if g1.length + g2.length ≤ 7 then
          some (g1 ++ List.replicate (8 - g1.length - g2.length) 0 ++ g2)
        else none

/-- Go `parseIPv6`, producing the 16 bytes. -/
def parseIPv6chars (cs : List Char) : Option (List Nat) :=
  (v6FromToks (splitOnChar ':' cs)).map groupsToBytes

/-- Go `net.ParseCIDR`: split at the first `/`; try the IPv4 parser
first, then IPv6; check the prefix length against the address width;
the network is the base address ANDed with the `CIDRMask`.  Only the
`*net.IPNet` component is modelled — `main.go` discards the first
return value. -/
def parseCIDR (s : String) : Option IPNet :=
  match breakAtChar '/' s.data with
  | none => none
  | some (addr, maskPart) =>
    match parseIPv4chars addr with
    | some ip4 =>
      match parseDecAll maskPart with
      | some n =>
        if n ≤ 32 then some ⟨andBytes ip4 (cidrMask n 32), cidrMask n 32⟩ else none
      | none => none
    | none =>
      match parseIPv6chars addr with
      | some ip16 =>
        match parseDecAll maskPart with
        | some n =>
          if n ≤ 128 then some ⟨andBytes ip16 (cidrMask n 128), cidrMask n 128⟩ else none
        | none => none
      | none => none

/-! ## The extraction loop (src/main.go lines 131-155) -/

/-- One step of `networks.Next()` / `networks.Network(&rec)`: either the
record failed to decode (`fail`, the `err != nil { continue }` case) or
it yielded a `*net.IPNet` and the record's `Country.ISOCode` (possibly
empty). -/
inductive DBEntry
  | fail : DBEntry
  | entry (net : IPNet) (isoCode : String) : DBEntry
deriving DecidableEq

/-- The body of the iteration loop: on `ISOCode == "CN"`, re-parse
`network.String()` with `net.ParseCIDR`, skip on error, and append
`ipNet.String()` to the IPv4 list when `ipNet.IP.To4() != nil`, else to
the IPv6 list. -/
def stepEntry (acc : List String × List String) (e : DBEntry) :
    List String × List String :=
  match e with
  | .fail => acc
  | .entry net iso =>
    if iso = "CN" then
      match parseCIDR (ipNetString net) with
      | none => acc
      | some ipn =>
        if (to4 ipn.ip).isSome then (acc.1 ++ [ipNetString ipn], acc.2)
        else (acc.1, acc.2 ++ [ipNetString ipn])
    else acc

/-- The whole loop: fold over the database iteration order starting from
the two empty lists (`cnIPv4`, `cnIPv6`). -/
def extractCN (entries : List DBEntry) : List String × List String :=
  entries.foldl stepEntry ([], [])

/-- Per-entry contribution to the IPv4 list. -/
def classifyV4 (e : DBEntry) : Option String :=
  match e with
  | .fail => none
  | .entry net iso =>
    if iso = "CN" then
      match parseCIDR (ipNetString net) with
      | none => none
      | some ipn => if (to4 ipn.ip).isSome then some (ipNetString ipn) else none
    else none

/-- Per-entry contribution to the IPv6 list. -/
def classifyV6 (e : DBEntry) : Option String :=
  match e with
  | .fail => none
  | .entry net iso =>
    if iso = "CN" then
      match parseCIDR (ipNetString net) with
      | none => none
      | some ipn => if (to4 ipn.ip).isSome then none else some (ipNetString ipn)
    else none

/-! ## The serializer (src/main.go `writeSetFile`, lines 176-194) -/

/-- The text `writeSetFile` produces: the five `fmt.Fprintf` headers and
footer around one indented, comma-terminated line per element, built in
call order. -/
def writeSetFileText (setName addrType : String) (items : List String) : String :=
  let s := "set " ++ setName ++ " \x7b\n"
  let s := s ++ "    type " ++ addrType ++ "\n"
  let s := s ++ "    flags interval\n"
  let s := s ++ "    elements = \x7b\n"
  let s := items.foldl (fun acc n => acc ++ "        " ++ n ++ ",\n") s
  s ++ "    \x7d\n\x7d\n"

/-! ## The pipeline (src/main.go `main`, lines 50-174)

`main` is a straight-line sequence of external calls; each `err != nil`
check logs once and calls `os.Exit(1)`.  The model takes the outcome of
every external call as input (a `World`) and produces the event trace,
the final exit code, and the rule-set file texts that were written.
`os.Exit` does not run deferred functions, so the fatal branches emit no
release events; the normal return of `main` runs its four deferred
closes in LIFO order, and `writeSetFile`'s deferred close runs when that
function returns. -/

/-- `assets` entry of the GitHub release JSON. -/
structure GitHubAsset where
  Name : String
  BrowserDownloadURL : String
deriving DecidableEq

/-- The GitHub release JSON shape `main` decodes. -/
structure GitHubRelease where
  TagName : String
  Assets : List GitHubAsset
deriving DecidableEq

/-- Go `path/filepath.Ext`: the suffix from the final dot of the last
path element; empty when that element has no dot. -/
def filepathExtAux : List Char → Option (List Char) → Option (List Char)
  | [], acc => acc
  | c :: rest, acc =>
    if c = '/' then filepathExtAux rest none
    else if c = '.' then filepathExtAux rest (some [c])
    else filepathExtAux rest (acc.map (fun t => t ++ [c]))

/-- Go `path/filepath.Ext` on a string. -/
def filepathExt (s : String) : String :=
  String.mk ((filepathExtAux s.data none).getD [])

/-- The asset-resolution loop (lines 70-76): the first asset whose name
has extension `.mmdb` sets `downloadURL` and breaks; otherwise the
initial empty string survives. -/
def resolveDownloadURL : List GitHubAsset → String
  | [] => ""
  | a :: rest =>
    if filepathExt a.Name = ".mmdb" then a.BrowserDownloadURL
    else resolveDownloadURL rest

/-- The resources `main` and `writeSetFile` acquire. -/
inductive Res
  | body1    -- resp.Body, the metadata response
  | tmpFile  -- out, the file created at tmpMMDB
  | body2    -- resp2.Body, the database download response
  | dbHandle -- db, the opened maxminddb reader
  | file4    -- f inside writeSetFile for outCN4
  | file6    -- f inside writeSetFile for outCN6
deriving DecidableEq

/-- The `logInfo` call sites of `main`, in source order. -/
inductive InfoTag
  | fetching | tag | url | downloading | downloadDone | replacing
  | parsing | generated | gen4 | gen6 | reloading | done
deriving DecidableEq

/-- Observable events of a run. -/
inductive Ev
  | info (t : InfoTag)
  | acquire (r : Res)
  | release (r : Res)
  | attemptDownload   -- the http.Get(downloadURL) call
  | attemptRename     -- the os.Rename call
  | attemptReload     -- the systemctl invocation
  | logError
deriving DecidableEq

/-- Result of a run: the events in order, the process exit code, and the
texts written to the two rule-set files (in full, when their `os.Create`
succeeded). -/
structure RunResult where
  trace : List Ev
  exitCode : Nat
  written4 : Option String
  written6 : Option String
deriving DecidableEq

/-- Outcomes of every external call `main` makes, in program order.
`Except Unit α` is `err == nil` with payload `α`, or an error.  The
metadata response carries its HTTP status code even though `main` never
reads it; `write4Errs`/`write6Errs` are the error results of the
individual `fmt.Fprintf` calls inside `writeSetFile`, which the source
discards. -/
structure World where
  metaResp : Except Unit (Nat × Except Unit GitHubRelease)
  createTmpOk : Bool
  dlResp : Except Unit (Nat × Bool)  -- status code, io.Copy success
  renameOk : Bool
  dbOpen : Except Unit (List DBEntry)
  create4Ok : Bool
  write4Errs : List Bool
  create6Ok : Bool
  write6Errs : List Bool
  reloadOk : Bool

/-- `writeSetFile` (lines 176-194): fatal only when `os.Create` fails;
the `fmt.Fprintf` error results (`writeErrs`) are discarded by the
source, so they affect nothing; the deferred `f.Close()` runs on
return. -/
def writeSetFileRun (r : Res) (createOk : Bool) (writeErrs : List Bool)
    (setName addrType : String) (items : List String) :
    Option (List Ev × String) :=
  if createOk then
    let _ := writeErrs  -- returned errors of the Fprintf calls: unread
    some ([Ev.acquire r, Ev.release r], writeSetFileText setName addrType items)
  else none

/-- The whole of `main` as a function of the external-call outcomes. -/
def run (w : World) : RunResult :=
  let tr := [Ev.info .fetching]
  match w.metaResp with
  | .error _ => ⟨tr ++ [Ev.logError], 1, none, none⟩
  | .ok (_, dec) =>
    let tr := tr ++ [Ev.acquire .body1]
    match dec with
    | .error _ => ⟨tr ++ [Ev.logError], 1, none, none⟩
    | .ok rel =>
      let tr := tr ++ [Ev.info .tag]
      let downloadURL := resolveDownloadURL rel.Assets
      if downloadURL = "" then ⟨tr ++ [Ev.logError], 1, none, none⟩
      else
        let tr := tr ++ [Ev.info .url, Ev.info .downloading]
        if w.createTmpOk = false then ⟨tr ++ [Ev.logError], 1, none, none⟩
        else
          let tr := tr ++ [Ev.acquire .tmpFile, Ev.attemptDownload]
          match w.dlResp with
          | .error _ => ⟨tr ++ [Ev.logError], 1, none, none⟩
          | .ok (status, copyOk) =>
            let tr := tr ++ [Ev.acquire .body2]
            if status ≠ 200 then ⟨tr ++ [Ev.logError], 1, none, none⟩
            else if copyOk = false then ⟨tr ++ [Ev.logError], 1, none, none⟩
            else
              let tr := tr ++ [Ev.info .downloadDone, Ev.info .replacing, Ev.attemptRename]
              if w.renameOk = false then ⟨tr ++ [Ev.logError], 1, none, none⟩
              else
                let tr := tr ++ [Ev.info .parsing]
                match w.dbOpen with
                | .error _ => ⟨tr ++ [Ev.logError], 1, none, none⟩
                | .ok entries =>
                  let tr := tr ++ [Ev.acquire .dbHandle]
                  let lists := extractCN entries
                  match writeSetFileRun .file4 w.create4Ok w.write4Errs "cn4" "ipv4_addr" lists.1 with
                  | none => ⟨tr ++ [Ev.logError], 1, none, none⟩
                  | some (ev4, t4) =>
                    let tr := tr ++ ev4
                    match writeSetFileRun .file6 w.create6Ok w.write6Errs "cn6" "ipv6_addr" lists.2 with
                    | none => ⟨tr ++ [Ev.logError], 1, some t4, none⟩
                    | some (ev6, t6) =>
                      let tr := tr ++ ev6
                        ++ [Ev.info .generated, Ev.info .gen4, Ev.info .gen6,
                            Ev.info .reloading, Ev.attemptReload]
                      if w.reloadOk = false then ⟨tr ++ [Ev.logError], 1, some t4, some t6⟩
                      else
                        ⟨tr ++ [Ev.info .done,
                            Ev.release .dbHandle, Ev.release .body2,
                            Ev.release .tmpFile, Ev.release .body1],
                          0, some t4, some t6⟩

/-! ## Extraction as an order-preserving `filterMap` -/

theorem stepEntry_eq (a b : List String) (e : DBEntry) :
    stepEntry (a, b) e = (a ++ (classifyV4 e).toList, b ++ (classifyV6 e).toList) := by
  cases e with
  | fail => simp [stepEntry, classifyV4, classifyV6]
  | entry net iso =>
    by_cases hiso : iso = "CN"
    · cases hp : parseCIDR (ipNetString net) with
      | none => simp [stepEntry, classifyV4, classifyV6, hiso, hp]
      | some ipn =>
        by_cases h4 : (to4 ipn.ip).isSome
        · simp [stepEntry, classifyV4, classifyV6, hiso, hp, h4]
        · simp [stepEntry, classifyV4, classifyV6, hiso, hp, h4]
    · simp [stepEntry, classifyV4, classifyV6, hiso]

theorem extractCN_foldl (l : List DBEntry) : ∀ a b : List String,
    l.foldl stepEntry (a, b) = (a ++ l.filterMap classifyV4, b ++ l.filterMap classifyV6) := by
  induction l with
  | nil => intro a b; simp
  | cons e t ih =>
    intro a b
    rw [List.foldl_cons, stepEntry_eq, ih]
    cases h4 : classifyV4 e with
    | none =>
      cases h6 : classifyV6 e with
      | none => simp [List.filterMap_cons, h4, h6]
      | some s => simp [List.filterMap_cons, h4, h6]
    | some s =>
      cases h6 : classifyV6 e with
      | none => simp [List.filterMap_cons, h4, h6]
      | some s' => simp [List.filterMap_cons, h4, h6]

/-- The loop is an order-preserving `filterMap` over the iteration. -/
theorem extractCN_eq_filterMap (l : List DBEntry) :
    extractCN l = (l.filterMap classifyV4, l.filterMap classifyV6) := by
  unfold extractCN
  rw [extractCN_foldl]
  simp

/-! ## Mask lemmas -/

theorem cidrMaskAux_length : ∀ n l, (cidrMaskAux n l).length = l := by
  intro n l
  induction l generalizing n with
  | zero => simp [cidrMaskAux]
  | succ k ih =>
    unfold cidrMaskAux
    by_cases h : 8 ≤ n
    · simp [h, ih]
    · simp [h, ih]

theorem cidrMaskAux_zero : ∀ l, cidrMaskAux 0 l = List.replicate l 0 := by
  intro l
  induction l with
  | zero => simp [cidrMaskAux]
  | succ k ih =>
    unfold cidrMaskAux
    rw [if_neg (by omega)]
    simp [ih, List.replicate_succ]

theorem cidrMaskAux_le (n l : Nat) : ∀ b ∈ cidrMaskAux n l, b ≤ 255 := by
  induction l generalizing n with
  | zero => simp [cidrMaskAux]
  | succ k ih =>
    unfold cidrMaskAux
    by_cases h : 8 ≤ n
    · rw [if_pos h]
      intro b hb
      rcases List.mem_cons.mp hb with rfl | hmem
      · omega
      · exact ih (n - 8) b hmem
    · rw [if_neg h]
      intro b hb
      rcases List.mem_cons.mp hb with rfl | hmem
      · have : 1 ≤ 2 ^ (8 - n) := Nat.one_le_two_pow
        omega
      · exact ih 0 b hmem

theorem byteOnes_val : ∀ n, n < 8 → byteOnes (256 - 2 ^ (8 - n)) = some n := by decide

theorem simpleMaskLength_cidrMaskAux : ∀ l n, n ≤ 8 * l →
    simpleMaskLength (cidrMaskAux n l) = some n := by
  intro l
  induction l with
  | zero =>
    intro n hn
    have : n = 0 := by omega
    subst this
    simp [cidrMaskAux, simpleMaskLength]
  | succ k ih =>
    intro n hn
    unfold cidrMaskAux
    by_cases h : 8 ≤ n
    · rw [if_pos h]
      unfold simpleMaskLength
      rw [if_pos rfl, ih (n - 8) (by omega)]
      simp only [Option.map_some']
      congr 1
      omega
    · rw [if_neg h]
      have hlt : n < 8 := by omega
      have hne : 256 - 2 ^ (8 - n) ≠ 255 := by interval_cases n <;> decide
      unfold simpleMaskLength
      rw [if_neg hne, byteOnes_val n hlt, cidrMaskAux_zero k]
      simp

theorem cidrMaskAux_drop : ∀ k l n, k ≤ l →
    (cidrMaskAux n l).drop k = cidrMaskAux (n - 8 * k) (l - k) := by
  intro k
  induction k with
  | zero => intro l n _; simp
  | succ j ih =>
    intro l n hk
    obtain ⟨m, rfl⟩ : ∃ m, l = m + 1 := ⟨l - 1, by omega⟩
    unfold cidrMaskAux
    by_cases h : 8 ≤ n
    · rw [if_pos h, List.drop_succ_cons, ih m (n - 8) (by omega)]
      rw [(by omega : n - 8 - 8 * j = n - 8 * (j + 1)),
        (by omega : m - j = m + 1 - (j + 1))]
      rw [← cidrMaskAux.eq_def]
    · rw [if_neg h, List.drop_succ_cons, ih m 0 (by omega)]
      rw [(by omega : 0 - 8 * j = n - 8 * (j + 1)),
        (by omega : m - j = m + 1 - (j + 1))]
      rw [← cidrMaskAux.eq_def]

/-! ## Bytes and groups -/

theorem groupsToBytes_toGroups : ∀ bs : List Nat, bs.length % 2 = 0 →
    (∀ b ∈ bs, b < 256) → groupsToBytes (toGroups bs) = bs
  | [], _, _ => by simp [toGroups, groupsToBytes]
  | [a], h, _ => by simp at h
  | a :: b :: t, hlen, hb => by
    have hbt : t.length % 2 = 0 := by
      have h2 := hlen
      simp only [List.length_cons] at h2
      omega
    have ha : a < 256 := hb a (by simp)
    have hbb : b < 256 := hb b (by simp)
    have hrec := groupsToBytes_toGroups t hbt (fun x hx => hb x (by simp [hx]))
    rw [toGroups]
    unfold groupsToBytes at hrec ⊢
    simp only [List.flatMap_cons, hrec]
    have h1 : (a * 256 + b) / 256 = a := by omega
    have h2 : (a * 256 + b) % 256 = b := by omega
    rw [h1, h2]
    simp

theorem toGroups_length : ∀ bs : List Nat, (toGroups bs).length = bs.length / 2
  | [] => by simp [toGroups]
  | [a] => by simp [toGroups]
  | a :: b :: t => by
    rw [toGroups]
    simp only [List.length_cons, toGroups_length t]
    omega

theorem toGroups_lt : ∀ bs : List Nat, (∀ b ∈ bs, b < 256) →
    ∀ g ∈ toGroups bs, g < 65536
  | [], _, g, hg => by simp [toGroups] at hg
  | [a], _, g, hg => by simp [toGroups] at hg
  | a :: b :: t, hb, g, hg => by
    rw [toGroups] at hg
    rcases List.mem_cons.mp hg with rfl | hgt
    · have ha : a < 256 := hb a (by simp)
      have hbb : b < 256 := hb b (by simp)
      omega
    · exact toGroups_lt t (fun x hx => hb x (by simp [hx])) g hgt

theorem groupsToBytes_length (gs : List Nat) :
    (groupsToBytes gs).length = 2 * gs.length := by
  induction gs with
  | nil => simp [groupsToBytes]
  | cons g t ih =>
    unfold groupsToBytes at ih ⊢
    simp only [List.flatMap_cons, List.length_append, ih]
    simp
    omega

theorem groupsToBytes_lt (gs : List Nat) (h : ∀ g ∈ gs, g ≤ 65535) :
    ∀ b ∈ groupsToBytes gs, b < 256 := by
  induction gs with
  | nil => intro b hb; simp [groupsToBytes] at hb
  | cons g t ih =>
    intro b hb
    unfold groupsToBytes at hb
    rw [List.flatMap_cons] at hb
    rcases List.mem_append.mp hb with hh | ht
    · have hg : g ≤ 65535 := h g (by simp)
      rcases List.mem_cons.mp hh with rfl | hh2
      · omega
      · rcases List.mem_cons.mp hh2 with rfl | hh3
        · omega
        · simp at hh3
    · exact ih (fun x hx => h x (by simp [hx])) b ht

/-! ## Byte-wise AND -/

theorem andBytes_length (a m : List Nat) :
    (andBytes a m).length = min a.length m.length := by
  simp [andBytes]

theorem andBytes_idem : ∀ a m : List Nat, andBytes (andBytes a m) m = andBytes a m
  | [], _ => by simp [andBytes]
  | _ :: _, [] => by simp [andBytes]
  | x :: xs, y :: ys => by
    unfold andBytes
    rw [List.zipWith_cons_cons, List.zipWith_cons_cons]
    have hrec := andBytes_idem xs ys
    unfold andBytes at hrec
    rw [hrec, Nat.and_assoc, Nat.and_self]

theorem andBytes_le (a m : List Nat) (ha : ∀ x ∈ a, x ≤ 255) :
    ∀ b ∈ andBytes a m, b ≤ 255 := by
  induction a generalizing m with
  | nil => intro b hb; simp [andBytes] at hb
  | cons x xs ih =>
    intro b hb
    cases m with
    | nil => simp [andBytes] at hb
    | cons y ys =>
      unfold andBytes at hb
      rw [List.zipWith_cons_cons] at hb
      rcases List.mem_cons.mp hb with rfl | hrest
      · exact Nat.le_trans Nat.and_le_left (ha x (by simp))
      · exact ih ys (fun z hz => ha z (by simp [hz])) b hrest

/-! ## Parser inversion lemmas -/

theorem mapOption_spec {α β : Type} (f : α → Option β) :
    ∀ (l : List α) (l2 : List β), mapOption f l = some l2 →
      l2.length = l.length ∧ ∀ b ∈ l2, ∃ a ∈ l, f a = some b := by
  intro l
  induction l with
  | nil =>
    intro l2 h
    simp only [mapOption, Option.some.injEq] at h
    subst h
    simp
  | cons a t ih =>
    intro l2 h
    unfold mapOption at h
    cases hfa : f a with
    | none => rw [hfa] at h; simp at h
    | some b =>
      rw [hfa] at h
      cases hmt : mapOption f t with
      | none => rw [hmt] at h; simp at h
      | some t2 =>
        rw [hmt] at h
        simp only [Option.some.injEq] at h
        subst h
        obtain ⟨hlen, hmem⟩ := ih t2 hmt
        constructor
        · simp [hlen]
        · intro x hx
          rcases List.mem_cons.mp hx with rfl | hxt
          · exact ⟨a, by simp, hfa⟩
          · obtain ⟨a2, ha2, hfa2⟩ := hmem x hxt
            exact ⟨a2, by simp [ha2], hfa2⟩

theorem mapOption_none {α β : Type} (f : α → Option β) :
    ∀ (l : List α) (a : α), a ∈ l → f a = none → mapOption f l = none := by
  intro l
  induction l with
  | nil => intro a ha; simp at ha
  | cons x t ih =>
    intro a ha hfa
    unfold mapOption
    rcases List.mem_cons.mp ha with rfl | hat
    · rw [hfa]
    · rw [ih a hat hfa]
      cases f x <;> rfl

theorem mapOption_map {α β : Type} (f : α → Option β) (g : β → α) :
    ∀ l : List β, (∀ b ∈ l, f (g b) = some b) → mapOption f (l.map g) = some l := by
  intro l
  induction l with
  | nil => intro _; simp [mapOption]
  | cons b t ih =>
    intro h
    simp only [List.map_cons]
    unfold mapOption
    rw [h b (by simp), ih (fun x hx => h x (by simp [hx]))]

theorem parseV4Field_le (t : List Char) (b : Nat) (h : parseV4Field t = some b) :
    b ≤ 255 := by
  unfold parseV4Field at h
  split at h
  · simp at h
  · split at h
    · simp at h
    · split at h
      · simp at h
      · split at h
        · have := Option.some.inj h
          omega
        · simp at h

theorem parseHexGroup_le (t : List Char) (g : Nat) (h : parseHexGroup t = some g) :
    g ≤ 65535 := by
  unfold parseHexGroup at h
  split at h
  · simp at h
  · split at h
    · simp at h
    · split at h
      · have := Option.some.inj h
        omega
      · simp at h

theorem parseIPv4chars_eq (cs : List Char) :
    parseIPv4chars cs =
      if (splitOnChar '.' cs).length = 4
      then mapOption parseV4Field (splitOnChar '.' cs) else none := rfl

theorem parseIPv4chars_spec (cs : List Char) (bs : List Nat)
    (h : parseIPv4chars cs = some bs) :
    bs.length = 4 ∧ ∀ b ∈ bs, b ≤ 255 := by
  rw [parseIPv4chars_eq] at h
  split at h
  · obtain ⟨hlen, hmem⟩ := mapOption_spec parseV4Field _ bs h
    refine ⟨by omega, fun b hb => ?_⟩
    obtain ⟨t, _, hft⟩ := hmem b hb
    exact parseV4Field_le t b hft
  · simp at h

/-! ## Intercalate membership -/

theorem mem_intercalate_single (s : Char) :
    ∀ parts : List (List Char), ∀ c ∈ List.intercalate [s] parts,
      c = s ∨ ∃ t ∈ parts, c ∈ t := by
  intro parts
  induction parts with
  | nil => intro c hc; simp [List.intercalate] at hc
  | cons t ts ih =>
    intro c hc
    match ts with
    | [] =>
      simp only [List.intercalate, List.intersperse_singleton, List.flatten,
        List.append_nil] at hc
      exact Or.inr ⟨t, by simp, hc⟩
    | u :: us =>
      have hct : List.intercalate [s] (t :: u :: us) =
          t ++ s :: List.intercalate [s] (u :: us) := by
        simp [List.intercalate, List.intersperse]
      rw [hct] at hc
      rcases List.mem_append.mp hc with h1 | h2
      · exact Or.inr ⟨t, by simp, h1⟩
      · rcases List.mem_cons.mp h2 with rfl | h3
        · exact Or.inl rfl
        · rcases ih c h3 with h | ⟨t2, ht2, hct2⟩
          · exact Or.inl h
          · exact Or.inr ⟨t2, by simp [ht2], hct2⟩

theorem sep_mem_intercalate (s : Char) :
    ∀ parts : List (List Char), 2 ≤ parts.length →
      s ∈ List.intercalate [s] parts := by
  intro parts hlen
  match parts with
  | t :: u :: us =>
    have : List.intercalate [s] (t :: u :: us) =
        t ++ s :: List.intercalate [s] (u :: us) := by
      simp [List.intercalate, List.intersperse]
    rw [this]
    exact List.mem_append.mpr (Or.inr (List.mem_cons_self _ _))

/-! ## Dotted-quad round trip -/

theorem quadChars_mem (bs : List Nat) :
    ∀ c ∈ quadChars bs, c = '.' ∨ ∃ d, d < 10 ∧ c = digitChar d := by
  intro c hc
  unfold quadChars at hc
  rcases mem_intercalate_single '.' _ c hc with h | ⟨t, ht, hct⟩
  · exact Or.inl h
  · obtain ⟨b, _, rfl⟩ := List.mem_map.mp ht
    exact Or.inr (natChars_mem 10 b (by norm_num) c hct)

theorem quadChars_not_special (bs : List Nat) :
    '/' ∉ quadChars bs ∧ ':' ∉ quadChars bs := by
  constructor
  · intro h
    rcases quadChars_mem bs '/' h with h1 | ⟨d, hd, hdc⟩
    · simp at h1
    · exact (digitChar_not_special d (by omega)).2.2 hdc.symm
  · intro h
    rcases quadChars_mem bs ':' h with h1 | ⟨d, hd, hdc⟩
    · simp at h1
    · exact (digitChar_not_special d (by omega)).1 hdc.symm

theorem parseIPv4chars_quadChars (bs : List Nat) (hlen : bs.length = 4)
    (hb : ∀ b ∈ bs, b ≤ 255) :
    parseIPv4chars (quadChars bs) = some bs := by
  obtain ⟨b0, b1, b2, b3, rfl⟩ : ∃ b0 b1 b2 b3, bs = [b0, b1, b2, b3] := by
    match bs, hlen with
    | [b0, b1, b2, b3], _ => exact ⟨b0, b1, b2, b3, rfl⟩
  have hsplit : splitOnChar '.' (quadChars [b0, b1, b2, b3]) =
      [natChars 10 b0, natChars 10 b1, natChars 10 b2, natChars 10 b3] := by
    unfold quadChars
    rw [List.map_cons, List.map_cons, List.map_cons, List.map_cons, List.map_nil]
    exact splitOnChar_intercalate '.' _ (by simp)
      (fun t ht => by
        simp only [List.mem_cons, List.not_mem_nil, or_false] at ht
        rcases ht with rfl | rfl | rfl | rfl
        all_goals exact (natChars_not_mem_special 10 _ (by norm_num) (by norm_num)).2.1)
  rw [parseIPv4chars_eq, hsplit]
  rw [if_pos (by simp)]
  have h0 := parseV4Field_natChars b0 (hb b0 (by simp))
  have h1 := parseV4Field_natChars b1 (hb b1 (by simp))
  have h2 := parseV4Field_natChars b2 (hb b2 (by simp))
  have h3 := parseV4Field_natChars b3 (hb b3 (by simp))
  simp only [mapOption, h0, h1, h2, h3]

/-! ## Zero-run facts -/

theorem zeroRunLen_le (gs : List Nat) : zeroRunLen gs ≤ gs.length := by
  induction gs with
  | nil => simp [zeroRunLen]
  | cons g t ih =>
    unfold zeroRunLen
    by_cases h : g = 0
    · rw [if_pos h]; simp; omega
    · rw [if_neg h]; simp

theorem take_zeroRunLen (gs : List Nat) :
    gs.take (zeroRunLen gs) = List.replicate (zeroRunLen gs) 0 := by
  induction gs with
  | nil => simp [zeroRunLen]
  | cons g t ih =>
    unfold zeroRunLen
    by_cases h : g = 0
    · rw [if_pos h, List.take_succ_cons, ih, h, List.replicate_succ]
    · rw [if_neg h]
      simp

theorem bestZeroRun_cons (g : Nat) (t : List Nat) :
    bestZeroRun (g :: t) =
      (if _h : zeroRunLen (g :: t) = 0
       then (bestZeroRun t).map (fun p => (p.1 + 1, p.2))
       else
        match bestZeroRun ((g :: t).drop (zeroRunLen (g :: t))) with
        | some p =>
          if zeroRunLen (g :: t) < p.2
          then some (p.1 + zeroRunLen (g :: t), p.2)
          else some (0, zeroRunLen (g :: t))
        | none => some (0, zeroRunLen (g :: t))) := by
  rw [bestZeroRun]

theorem bestZeroRun_split : ∀ gs : List Nat, ∀ s l, bestZeroRun gs = some (s, l) →
    1 ≤ l ∧ ∃ pre post : List Nat,
      gs = pre ++ List.replicate l 0 ++ post ∧ pre.length = s := by
  intro gs
  induction gs using bestZeroRun.induct with
  | case1 =>
    intro s l h
    simp [bestZeroRun] at h
  | case2 g t lv hl0 ih =>
    intro s l h
    rw [bestZeroRun_cons, dif_pos hl0] at h
    cases hbt : bestZeroRun t with
    | none => rw [hbt] at h; simp at h
    | some p =>
      rw [hbt] at h
      simp only [Option.map_some', Option.some.injEq] at h
      obtain ⟨hs, hl⟩ : p.1 + 1 = s ∧ p.2 = l := Prod.mk.injEq .. ▸ Prod.ext_iff.mp h
      obtain ⟨h1, pre, post, hsplit, hlen⟩ := ih p.1 p.2 (by rw [hbt])
      subst hl
      refine ⟨h1, g :: pre, post, ?_, ?_⟩
      · rw [hsplit]; rfl
      · simp [hlen, ← hs]
  | case3 g t lv hne p hdrop hlt ih =>
    intro s l h
    rw [bestZeroRun_cons, dif_neg hne, hdrop] at h
    simp only [] at h
    rw [if_pos hlt] at h
    simp only [Option.some.injEq] at h
    obtain ⟨hs, hl⟩ := Prod.ext_iff.mp h
    simp only at hs hl
    obtain ⟨h1, pre, post, hsplit, hlen⟩ :=
      ih p.1 p.2 (by rw [hdrop])
    have htk : (g :: t).take (zeroRunLen (g :: t)) ++ (g :: t).drop (zeroRunLen (g :: t)) = g :: t :=
      List.take_append_drop _ _
    refine ⟨by omega, (g :: t).take (zeroRunLen (g :: t)) ++ pre, post, ?_, ?_⟩
    · rw [← hl]
      conv_lhs => rw [← htk]
      rw [hsplit]
      simp [List.append_assoc]
    · rw [List.length_append, List.length_take, hlen,
        Nat.min_eq_left (zeroRunLen_le (g :: t))]
      omega
  | case4 g t lv hne p hdrop hnlt ih =>
    intro s l h
    rw [bestZeroRun_cons, dif_neg hne, hdrop] at h
    simp only [] at h
    rw [if_neg hnlt] at h
    simp only [Option.some.injEq] at h
    obtain ⟨hs, hl⟩ := Prod.ext_iff.mp h
    simp only at hs hl
    refine ⟨by omega, [], (g :: t).drop (zeroRunLen (g :: t)), ?_, by simp [← hs]⟩
    rw [List.nil_append, ← hl, ← take_zeroRunLen (g :: t), List.take_append_drop]
  | case5 g t lv hne hdrop ih =>
    intro s l h
    rw [bestZeroRun_cons, dif_neg hne, hdrop] at h
    simp only [Option.some.injEq] at h
    obtain ⟨hs, hl⟩ := Prod.ext_iff.mp h
    simp only at hs hl
    refine ⟨by omega, [], (g :: t).drop (zeroRunLen (g :: t)), ?_, by simp [← hs]⟩
    rw [List.nil_append, ← hl, ← take_zeroRunLen (g :: t), List.take_append_drop]

/-! ## Token facts for the IPv6 round trip -/

theorem natChars16_no_dot (g : Nat) : (natChars 16 g).contains '.' = false := by
  rw [Bool.eq_false_iff]
  intro hc
  obtain ⟨x, hx, hbeq⟩ := List.contains_iff_exists_mem_beq.mp hc
  have : ('.' : Char) = x := by simpa using hbeq
  exact (natChars_not_mem_special 16 g (by norm_num) (by norm_num)).2.1 (this ▸ hx)

theorem parseGroupList_hex (b : Bool) :
    ∀ gs : List Nat, (∀ g ∈ gs, g ≤ 65535) →
      parseGroupList b (gs.map (natChars 16)) = some gs
  | [], _ => by simp [parseGroupList]
  | [g], h => by
    simp only [List.map_cons, List.map_nil]
    unfold parseGroupList
    rw [natChars16_no_dot g]
    simp only [Bool.and_false, Bool.false_eq_true, if_neg (by simp : ¬False)]
    rw [parseHexGroup_natChars g (h g (by simp))]
    rfl
  | g1 :: g2 :: t, h => by
    simp only [List.map_cons]
    have hrec := parseGroupList_hex b (g2 :: t) (fun x hx => h x (by simp at hx ⊢; tauto))
    simp only [List.map_cons] at hrec
    unfold parseGroupList
    rw [parseHexGroup_natChars g1 (h g1 (by simp))]
    simp only [Option.bind_eq_bind, Option.some_bind, hrec]

theorem breakAtEmpty_none : ∀ toks : List (List Char),
    (∀ t ∈ toks, t ≠ []) → breakAtEmpty toks = (toks, none) := by
  intro toks
  induction toks with
  | nil => intro _; simp [breakAtEmpty]
  | cons t ts ih =>
    intro h
    unfold breakAtEmpty
    rw [if_neg (by simpa [List.isEmpty_iff] using h t (by simp))]
    rw [ih (fun x hx => h x (by simp [hx]))]

theorem breakAtEmpty_append : ∀ pre rest : List (List Char),
    (∀ t ∈ pre, t ≠ []) →
    breakAtEmpty (pre ++ ([] : List Char) :: rest) = (pre, some rest) := by
  intro pre
  induction pre with
  | nil =>
    intro rest _
    simp [breakAtEmpty]
  | cons t ts ih =>
    intro rest h
    rw [List.cons_append]
    unfold breakAtEmpty
    rw [if_neg (by simpa [List.isEmpty_iff] using h t (by simp))]
    rw [ih rest (fun x hx => h x (by simp [hx]))]

theorem breakAtEmpty_cons_append (c : Char) (t0 : List Char)
    (pre rest : List (List Char)) (h : ∀ t ∈ (c :: t0) :: pre, t ≠ []) :
    breakAtEmpty ((c :: t0) :: (pre ++ ([] : List Char) :: rest)) =
      ((c :: t0) :: pre, some rest) := by
  rw [← List.cons_append]
  exact breakAtEmpty_append _ _ h

theorem v6Tokens_mem (gs : List Nat) :
    ∀ t ∈ v6Tokens gs, t = [] ∨ ∃ g, t = natChars 16 g := by
  intro t ht
  unfold v6Tokens at ht
  cases he : elideRun gs with
  | none =>
    rw [he] at ht
    obtain ⟨g, _, rfl⟩ := List.mem_map.mp ht
    exact Or.inr ⟨g, rfl⟩
  | some p =>
    rw [he] at ht
    obtain ⟨s, l⟩ := p
    simp only [List.mem_append] at ht
    rcases ht with (h1 | h2) | h3
    · by_cases hp : ((gs.take s).map (natChars 16)).isEmpty
      · rw [if_pos hp] at h1
        simp at h1
        exact Or.inl h1
      · rw [if_neg hp] at h1
        obtain ⟨g, _, rfl⟩ := List.mem_map.mp h1
        exact Or.inr ⟨g, rfl⟩
    · simp at h2
      exact Or.inl h2
    · by_cases hp : ((gs.drop (s + l)).map (natChars 16)).isEmpty
      · rw [if_pos hp] at h3
        simp at h3
        exact Or.inl h3
      · rw [if_neg hp] at h3
        obtain ⟨g, _, rfl⟩ := List.mem_map.mp h3
        exact Or.inr ⟨g, rfl⟩

theorem ipv6Chars_mem (gs : List Nat) :
    ∀ c ∈ ipv6Chars gs, c = ':' ∨ ∃ d, d < 16 ∧ c = digitChar d := by
  intro c hc
  unfold ipv6Chars at hc
  rcases mem_intercalate_single ':' _ c hc with h | ⟨t, ht, hct⟩
  · exact Or.inl h
  · rcases v6Tokens_mem gs t ht with rfl | ⟨g, rfl⟩
    · simp at hct
    · exact Or.inr (natChars_mem 16 g (by norm_num) c hct)

theorem ipv6Chars_no_slash_dot (gs : List Nat) :
    '/' ∉ ipv6Chars gs ∧ '.' ∉ ipv6Chars gs := by
  constructor
  · intro h
    rcases ipv6Chars_mem gs '/' h with h1 | ⟨d, hd, hdc⟩
    · simp at h1
    · exact (digitChar_not_special d hd).2.2 hdc.symm
  · intro h
    rcases ipv6Chars_mem gs '.' h with h1 | ⟨d, hd, hdc⟩
    · simp at h1
    · exact (digitChar_not_special d hd).2.1 hdc.symm

theorem v6Tokens_length_ge (gs : List Nat) (h8 : gs.length = 8) :
    2 ≤ (v6Tokens gs).length := by
  unfold v6Tokens
  cases he : elideRun gs with
  | none => simp [h8]
  | some p =>
    obtain ⟨s, l⟩ := p
    simp only [List.length_append]
    have h1 : 1 ≤ (if ((gs.take s).map (natChars 16)).isEmpty
        then [([] : List Char)] else (gs.take s).map (natChars 16)).length := by
      split
      · simp
      · rename_i hne
        have hne2 : (gs.take s).map (natChars 16) ≠ [] := by
          simpa [List.isEmpty_iff] using hne
        rcases List.exists_cons_of_ne_nil hne2 with ⟨x, xs, hx⟩
        simp [hx]
    simp only [List.length_cons, List.length_nil]
    omega

theorem colon_mem_ipv6Chars (gs : List Nat) (h8 : gs.length = 8) :
    ':' ∈ ipv6Chars gs :=
  sep_mem_intercalate ':' _ (v6Tokens_length_ge gs h8)

theorem v6Tokens_colon_free (gs : List Nat) :
    ∀ t ∈ v6Tokens gs, ':' ∉ t := by
  intro t ht
  rcases v6Tokens_mem gs t ht with rfl | ⟨g, rfl⟩
  · simp
  · exact (natChars_not_mem_special 16 g (by norm_num) (by norm_num)).1

/-! ## The IPv6 print/parse round trip -/

theorem elideRun_inv (gs : List Nat) (s l : Nat) (he : elideRun gs = some (s, l)) :
    bestZeroRun gs = some (s, l) ∧ 2 ≤ l := by
  unfold elideRun at he
  cases hb : bestZeroRun gs with
  | none => rw [hb] at he; simp at he
  | some p =>
    rw [hb] at he
    simp only [] at he
    by_cases h2 : 2 ≤ p.2
    · rw [if_pos h2] at he
      obtain rfl := Option.some.inj he
      exact ⟨rfl, h2⟩
    · rw [if_neg h2] at he
      simp at he

theorem v6FromToks_roundtrip (gs : List Nat) (h8 : gs.length = 8)
    (hval : ∀ g ∈ gs, g ≤ 65535) :
    v6FromToks (v6Tokens gs) = some gs := by
  cases he : elideRun gs with
  | none =>
    have hv : v6Tokens gs = gs.map (natChars 16) := by
      unfold v6Tokens; rw [he]
    rw [hv]
    obtain ⟨g0, grest, rfl⟩ : ∃ g0 grest, gs = g0 :: grest := by
      match gs, h8 with
      | g0 :: grest, _ => exact ⟨g0, grest, rfl⟩
    obtain ⟨c0, t0, hc0⟩ := List.exists_cons_of_ne_nil (natChars_ne_nil 16 g0 (by norm_num))
    rw [List.map_cons, hc0]
    unfold v6FromToks
    simp only []
    rw [breakAtEmpty_none ((c0 :: t0) :: grest.map (natChars 16))
      (by
        intro t ht
        rcases List.mem_cons.mp ht with rfl | hmem
        · simp
        · obtain ⟨g, _, rfl⟩ := List.mem_map.mp hmem
          exact natChars_ne_nil 16 g (by norm_num))]
    simp only []
    rw [← hc0, ← List.map_cons]
    rw [parseGroupList_hex true (g0 :: grest) hval]
    simp only [Option.bind_eq_bind, Option.some_bind]
    rw [if_pos h8]
  | some p =>
    obtain ⟨s, l⟩ := p
    obtain ⟨hbest, hl2⟩ := elideRun_inv gs s l he
    obtain ⟨hl1, pre, post, hgs, hlenpre⟩ := bestZeroRun_split gs s l hbest
    have hlen8 : pre.length + l + post.length = 8 := by
      rw [hgs] at h8
      simp [List.length_append, List.length_replicate] at h8
      omega
    have htake : gs.take s = pre := by
      rw [hgs, List.append_assoc]
      exact List.take_left' hlenpre
    have hdropgs : gs.drop (s + l) = post := by
      rw [hgs]
      apply List.drop_left'
      simp [List.length_append, List.length_replicate, hlenpre]
    have hv : v6Tokens gs =
        (if (pre.map (natChars 16)).isEmpty then [[]] else pre.map (natChars 16))
          ++ [[]]
          ++ (if (post.map (natChars 16)).isEmpty then [[]] else post.map (natChars 16)) := by
      unfold v6Tokens
      rw [he]
      simp only []
      rw [htake, hdropgs]
    have hpreval : ∀ g ∈ pre, g ≤ 65535 := by
      intro g hg
      exact hval g (by rw [hgs]; simp [hg])
    have hpostval : ∀ g ∈ post, g ≤ 65535 := by
      intro g hg
      exact hval g (by rw [hgs]; simp [hg])
    rw [hv]
    have hne_nc : ∀ g : Nat, natChars 16 g ≠ [] :=
      fun g => natChars_ne_nil 16 g (by norm_num)
    match pre, post, hpreval, hpostval, hgs, hlenpre, hlen8 with
    | [], [], _, _, hgs, hlenpre, hlen8 =>
      simp only [List.map_nil, List.isEmpty_nil, if_pos rfl]
      have hgs8 : gs = List.replicate 8 0 := by
        rw [hgs]
        simp only [List.nil_append, List.append_nil]
        have : l = 8 := by simpa using hlen8
        rw [this]
      rw [hgs8]
      rfl
    | [], p0 :: ps, _, hpostval, hgs, hlenpre, hlen8 =>
      rw [show ((if (List.map (natChars 16) ([] : List Nat)).isEmpty = true then [[]]
            else List.map (natChars 16) ([] : List Nat)) ++ [[]] ++
          if (List.map (natChars 16) (p0 :: ps)).isEmpty = true then [[]]
            else List.map (natChars 16) (p0 :: ps)) =
          ([] : List Char) :: ([] : List Char) ::
            (natChars 16 p0 :: ps.map (natChars 16)) from by simp]
      unfold v6FromToks
      simp only []
      rw [if_neg (by simp)]
      rw [if_neg (by
        intro hcontra
        exact hne_nc p0 (List.cons_eq_cons.mp hcontra).1)]
      rw [← List.map_cons, parseGroupList_hex true (p0 :: ps) hpostval]
      simp only [Option.bind_eq_bind, Option.some_bind]
      have hplen : (p0 :: ps).length ≤ 7 := by
        simp only [List.length_nil, List.length_cons] at hlen8 ⊢
        omega
      rw [if_pos hplen]
      rw [hgs]
      simp only [List.nil_append, Option.some.injEq]
      rw [show 8 - (p0 :: ps).length = l from by
        simp only [List.length_nil, List.length_cons] at hlen8 ⊢
        omega]
    | q0 :: qs, [], hpreval, _, hgs, hlenpre, hlen8 =>
      rw [show ((if (List.map (natChars 16) (q0 :: qs)).isEmpty = true then [[]]
            else List.map (natChars 16) (q0 :: qs)) ++ [[]] ++
          if (List.map (natChars 16) ([] : List Nat)).isEmpty = true then [[]]
            else List.map (natChars 16) ([] : List Nat)) =
          natChars 16 q0 :: (qs.map (natChars 16) ++ ([] : List Char) :: [[]]) from by
        simp]
      obtain ⟨c0, t0, hc0⟩ := List.exists_cons_of_ne_nil (hne_nc q0)
      rw [hc0]
      unfold v6FromToks
      simp only []
      rw [breakAtEmpty_cons_append c0 t0 (qs.map (natChars 16)) [[]]
        (by
          intro t ht
          rcases List.mem_cons.mp ht with rfl | hmem
          · simp
          · obtain ⟨g, _, rfl⟩ := List.mem_map.mp hmem
            exact hne_nc g)]
      simp only []
      rw [if_pos trivial]
      rw [← hc0, ← List.map_cons, parseGroupList_hex false (q0 :: qs) hpreval]
      simp only [Option.bind_eq_bind, Option.some_bind]
      have hqlen : (q0 :: qs).length ≤ 7 := by
        simp only [List.length_nil, List.length_cons] at hlen8 ⊢
        omega
      rw [if_pos hqlen]
      rw [hgs]
      simp only [List.append_nil, Option.some.injEq]
      rw [show 8 - (q0 :: qs).length = l from by
        simp only [List.length_nil, List.length_cons] at hlen8 ⊢
        omega]
    | q0 :: qs, p0 :: ps, hpreval, hpostval, hgs, hlenpre, hlen8 =>
      rw [show ((if (List.map (natChars 16) (q0 :: qs)).isEmpty = true then [[]]
            else List.map (natChars 16) (q0 :: qs)) ++ [[]] ++
          if (List.map (natChars 16) (p0 :: ps)).isEmpty = true then [[]]
            else List.map (natChars 16) (p0 :: ps)) =
          natChars 16 q0 :: (qs.map (natChars 16) ++ ([] : List Char) ::
            (natChars 16 p0 :: ps.map (natChars 16))) from by simp]
      obtain ⟨c0, t0, hc0⟩ := List.exists_cons_of_ne_nil (hne_nc q0)
      rw [hc0]
      unfold v6FromToks
      simp only []
      rw [breakAtEmpty_cons_append c0 t0 (qs.map (natChars 16))
        (natChars 16 p0 :: ps.map (natChars 16))
        (by
          intro t ht
          rcases List.mem_cons.mp ht with rfl | hmem
          · simp
          · obtain ⟨g, _, rfl⟩ := List.mem_map.mp hmem
            exact hne_nc g)]
      simp only []
      rw [if_neg (by
        intro hcontra
        exact hne_nc p0 (List.cons_eq_cons.mp hcontra).1)]
      rw [← hc0, ← List.map_cons, ← List.map_cons,
        parseGroupList_hex false (q0 :: qs) hpreval,
        parseGroupList_hex true (p0 :: ps) hpostval]
      simp only [Option.bind_eq_bind, Option.some_bind]
      have hsum : (q0 :: qs).length + (p0 :: ps).length ≤ 7 := by
        simp only [List.length_cons] at hlen8 ⊢
        omega
      rw [if_pos hsum]
      rw [hgs]
      simp only [Option.some.injEq]
      rw [show 8 - (q0 :: qs).length - (p0 :: ps).length = l from by
        simp only [List.length_cons] at hlen8 ⊢
        omega]

/-! ## Parsed IPv6 groups are bounded and eight long -/

theorem parseGroupList_spec (b : Bool) : ∀ toks gs,
    parseGroupList b toks = some gs → ∀ g ∈ gs, g ≤ 65535
  | [], gs, h => by
    simp only [parseGroupList, Option.some.injEq] at h
    subst h
    simp
  | [t], gs, h => by
    unfold parseGroupList at h
    split at h
    · cases hq : parseIPv4chars t with
      | none => rw [hq] at h; simp at h
      | some q =>
        rw [hq] at h
        simp only [Option.map_some', Option.some.injEq] at h
        obtain ⟨hlen4, hbyte⟩ := parseIPv4chars_spec t q hq
        obtain ⟨a, bb, c, d, rfl⟩ : ∃ a bb c d, q = [a, bb, c, d] := by
          match q, hlen4 with
          | [a, bb, c, d], _ => exact ⟨a, bb, c, d, rfl⟩
        subst h
        intro g hg
        have ha := hbyte a (by simp)
        have hbb := hbyte bb (by simp)
        have hc := hbyte c (by simp)
        have hd := hbyte d (by simp)
        rcases List.mem_cons.mp hg with rfl | hg2
        · first
          | omega
          | (simp only [List.getD_cons_zero, List.getD_cons_succ]; omega)
        · rcases List.mem_cons.mp hg2 with rfl | hg3
          · first
            | omega
            | (simp only [List.getD_cons_zero, List.getD_cons_succ]; omega)
          · simp at hg3
    · cases hx : parseHexGroup t with
      | none => rw [hx] at h; simp at h
      | some g0 =>
        rw [hx] at h
        simp only [Option.map_some', Option.some.injEq] at h
        subst h
        intro g hg
        simp only [List.mem_singleton] at hg
        subst hg
        exact parseHexGroup_le t g hx
  | t1 :: t2 :: rest, gs, h => by
    unfold parseGroupList at h
    cases hx : parseHexGroup t1 with
    | none => rw [hx] at h; simp at h
    | some g0 =>
      rw [hx] at h
      simp only [Option.bind_eq_bind, Option.some_bind] at h
      cases hr : parseGroupList b (t2 :: rest) with
      | none => rw [hr] at h; simp at h
      | some gs2 =>
        rw [hr] at h
        simp only [Option.some_bind, Option.some.injEq] at h
        subst h
        intro g hg
        rcases List.mem_cons.mp hg with rfl | hg2
        · exact parseHexGroup_le t1 g hx
        · exact parseGroupList_spec b (t2 :: rest) gs2 hr g hg2

theorem v6FromToks_spec (toks : List (List Char)) (gs : List Nat)
    (h : v6FromToks toks = some gs) :
    gs.length = 8 ∧ ∀ g ∈ gs, g ≤ 65535 := by
  unfold v6FromToks at h
  split at h
  · simp at h
  · rename_i rest2
    split at h
    · simp at h
    · split at h
      · obtain rfl := Option.some.inj h
        constructor
        · simp
        · intro g hg
          have := List.eq_of_mem_replicate hg
          omega
      · cases hp : parseGroupList true rest2 with
        | none => rw [hp] at h; simp at h
        | some gsp =>
          rw [hp] at h
          simp only [Option.bind_eq_bind, Option.some_bind] at h
          split at h
          · rename_i hle
            obtain rfl := Option.some.inj h
            constructor
            · simp only [List.length_append, List.length_replicate]
              omega
            · intro g hg
              rcases List.mem_append.mp hg with hrep | hmem
              · have := List.eq_of_mem_replicate hrep
                omega
              · exact parseGroupList_spec true rest2 gsp hp g hmem
          · simp at h
  · simp at h
  · split at h
    · rename_i pre hbreak
      cases hp : parseGroupList true pre with
      | none => rw [hp] at h; simp at h
      | some gsp =>
        rw [hp] at h
        simp only [Option.bind_eq_bind, Option.some_bind] at h
        split at h
        · rename_i h8
          obtain rfl := Option.some.inj h
          exact ⟨h8, parseGroupList_spec true pre gsp hp⟩
        · simp at h
    · rename_i pre post hbreak
      split at h
      · cases hp : parseGroupList false pre with
        | none => rw [hp] at h; simp at h
        | some gsp =>
          rw [hp] at h
          simp only [Option.bind_eq_bind, Option.some_bind] at h
          split at h
          · rename_i hle
            obtain rfl := Option.some.inj h
            constructor
            · simp only [List.length_append, List.length_replicate]
              omega
            · intro g hg
              rcases List.mem_append.mp hg with hmem | hrep
              · exact parseGroupList_spec false pre gsp hp g hmem
              · have := List.eq_of_mem_replicate hrep
                omega
          · simp at h
      · cases hp1 : parseGroupList false pre with
        | none => rw [hp1] at h; simp at h
        | some g1 =>
          rw [hp1] at h
          simp only [Option.bind_eq_bind, Option.some_bind] at h
          cases hp2 : parseGroupList true post with
          | none => rw [hp2] at h; simp at h
          | some g2 =>
            rw [hp2] at h
            simp only [Option.some_bind] at h
            split at h
            · rename_i hle
              obtain rfl := Option.some.inj h
              constructor
              · simp only [List.length_append, List.length_replicate]
                omega
              · intro g hg
                rcases List.mem_append.mp hg with hg1 | hg2
                · rcases List.mem_append.mp hg1 with hm1 | hrep
                  · exact parseGroupList_spec false pre g1 hp1 g hm1
                  · have := List.eq_of_mem_replicate hrep
                    omega
                · exact parseGroupList_spec true post g2 hp2 g hg2
            · simp at h

/-! ## Assembling CIDR text -/

theorem breakAtChar_append (c : Char) :
    ∀ a b : List Char, c ∉ a → breakAtChar c (a ++ c :: b) = some (a, b) := by
  intro a
  induction a with
  | nil =>
    intro b _
    simp only [List.nil_append]
    unfold breakAtChar
    rw [if_pos rfl]
  | cons x xs ih =>
    intro b h
    have hx : x ≠ c := fun hh => h (hh ▸ List.mem_cons_self x xs)
    rw [List.cons_append]
    unfold breakAtChar
    rw [if_neg hx, ih b (fun hh => h (List.mem_cons_of_mem x hh))]
    rfl

theorem cidr_data (a b : List Char) :
    (String.mk a ++ "/" ++ String.mk b).data = a ++ '/' :: b := by
  simp [String.data_append]

theorem to4_of_length4 (ip : List Nat) (h : ip.length = 4) : to4 ip = some ip := by
  unfold to4
  rw [if_pos h]

theorem to4_16_inv (ip q : List Nat) (hlen : ip.length = 16) (h : to4 ip = some q) :
    q = ip.drop 12 ∧ q.length = 4 := by
  unfold to4 at h
  rw [if_neg (by omega)] at h
  split at h
  · obtain rfl := Option.some.inj h
    exact ⟨rfl, by simp [hlen]⟩
  · simp at h

theorem cidrMask32_eq (n : Nat) (hn : n ≤ 32) : cidrMask n 32 = cidrMaskAux n 4 := by
  unfold cidrMask
  rw [if_pos (by simp [hn])]

theorem cidrMask128_eq (n : Nat) (hn : n ≤ 128) : cidrMask n 128 = cidrMaskAux n 16 := by
  unfold cidrMask
  rw [if_pos (by simp [hn])]

theorem parseIPv4chars_none_of_colon (cs : List Char) (h : ':' ∈ cs) :
    parseIPv4chars cs = none := by
  rcases mem_of_splitOnChar '.' ':' cs h with hc | ⟨t, ht, hct⟩
  · simp at hc
  · have hfield : parseV4Field t = none := by
      unfold parseV4Field
      rw [if_neg (by
          simp only [List.isEmpty_iff]
          intro hc; subst hc; simp at hct)]
      rw [if_pos (by
        simp only [Bool.not_eq_true']
        rw [Bool.eq_false_iff]
        intro hall
        have := List.all_eq_true.mp hall ':' hct
        simp [isDigitC] at this)]
    rw [parseIPv4chars_eq]
    split
    · exact mapOption_none parseV4Field _ t ht hfield
    · rfl

theorem splitOnChar_ipv6Chars (gs : List Nat) (h8 : gs.length = 8) :
    splitOnChar ':' (ipv6Chars gs) = v6Tokens gs := by
  unfold ipv6Chars
  apply splitOnChar_intercalate
  · intro hc
    have := v6Tokens_length_ge gs h8
    rw [hc] at this
    simp at this
  · exact v6Tokens_colon_free gs

theorem parseIPv6chars_roundtrip (bs : List Nat) (hlen : bs.length = 16)
    (hb : ∀ b ∈ bs, b < 256) :
    parseIPv6chars (ipv6Chars (toGroups bs)) = some bs := by
  have h8 : (toGroups bs).length = 8 := by rw [toGroups_length, hlen]
  have hval : ∀ g ∈ toGroups bs, g ≤ 65535 := by
    intro g hg
    have := toGroups_lt bs hb g hg
    omega
  unfold parseIPv6chars
  rw [splitOnChar_ipv6Chars _ h8, v6FromToks_roundtrip _ h8 hval]
  simp only [Option.map_some']
  rw [groupsToBytes_toGroups bs (by omega) hb]

/-! ## Evaluating `ipNetString` on parser output -/

theorem ipString_quad (ip : List Nat) (hlen : ip.length = 4) :
    ipString ip = String.mk (quadChars ip) := by
  unfold ipString
  rw [if_neg (by omega), to4_of_length4 ip hlen]

theorem ipNetString_v4 (ip : List Nat) (n : Nat) (hlen : ip.length = 4) (hn : n ≤ 32) :
    ipNetString ⟨ip, cidrMask n 32⟩ =
      String.mk (quadChars ip) ++ "/" ++ String.mk (natChars 10 n) := by
  unfold ipNetString
  rw [to4_of_length4 ip hlen]
  simp only []
  rw [cidrMask32_eq n hn]
  rw [if_pos (cidrMaskAux_length n 4), if_pos hlen]
  simp only []
  rw [simpleMaskLength_cidrMaskAux 4 n (by omega)]
  simp only []
  rw [ipString_quad ip hlen]

theorem ipNetString_v6 (ip : List Nat) (n : Nat) (hlen : ip.length = 16) (hn : n ≤ 128) :
    ipNetString ⟨ip, cidrMask n 128⟩ =
      match to4 ip with
      | some q => String.mk (quadChars q) ++ "/" ++ String.mk (natChars 10 (n - 96))
      | none => String.mk (ipv6Chars (toGroups ip)) ++ "/" ++ String.mk (natChars 10 n) := by
  cases h4 : to4 ip with
  | some q =>
    obtain ⟨hq, hqlen⟩ := to4_16_inv ip q hlen h4
    unfold ipNetString
    rw [h4]
    simp only []
    rw [cidrMask128_eq n hn]
    rw [if_neg (by rw [cidrMaskAux_length]; omega),
      if_pos (cidrMaskAux_length n 16), if_pos hqlen]
    simp only []
    rw [cidrMaskAux_drop 12 16 n (by omega)]
    rw [show (16 - 12 : Nat) = 4 from rfl, show (8 * 12 : Nat) = 96 from rfl]
    rw [simpleMaskLength_cidrMaskAux 4 (n - 96) (by omega)]
    simp only []
    rw [ipString_quad q hqlen]
  | none =>
    unfold ipNetString
    rw [h4]
    simp only []
    rw [if_pos hlen]
    simp only []
    rw [cidrMask128_eq n hn]
    rw [if_neg (by rw [cidrMaskAux_length]; omega),
      if_pos (cidrMaskAux_length n 16), if_neg (by omega)]
    simp only []
    rw [simpleMaskLength_cidrMaskAux 16 n (by omega)]
    simp only []
    unfold ipString
    rw [if_neg (by omega), h4, if_pos hlen]

/-! ## Re-parsing the canonical strings -/

theorem parseCIDR_quad (bs : List Nat) (n : Nat) (hlen : bs.length = 4)
    (hb : ∀ b ∈ bs, b ≤ 255) (hn : n ≤ 32) :
    parseCIDR (String.mk (quadChars bs) ++ "/" ++ String.mk (natChars 10 n)) =
      some ⟨andBytes bs (cidrMask n 32), cidrMask n 32⟩ := by
  unfold parseCIDR
  rw [cidr_data, breakAtChar_append '/' _ _ (quadChars_not_special bs).1]
  simp only []
  rw [parseIPv4chars_quadChars bs hlen hb]
  simp only []
  rw [parseDecAll_natChars n]
  simp only []
  rw [if_pos hn]

theorem parseCIDR_ipv6str (bs : List Nat) (n : Nat) (hlen : bs.length = 16)
    (hb : ∀ b ∈ bs, b < 256) (hn : n ≤ 128) :
    parseCIDR (String.mk (ipv6Chars (toGroups bs)) ++ "/" ++ String.mk (natChars 10 n)) =
      some ⟨andBytes bs (cidrMask n 128), cidrMask n 128⟩ := by
  have h8 : (toGroups bs).length = 8 := by rw [toGroups_length, hlen]
  unfold parseCIDR
  rw [cidr_data, breakAtChar_append '/' _ _ (ipv6Chars_no_slash_dot (toGroups bs)).1]
  simp only []
  rw [parseIPv4chars_none_of_colon _ (colon_mem_ipv6Chars _ h8)]
  simp only []
  rw [parseIPv6chars_roundtrip bs hlen hb]
  simp only []
  rw [parseDecAll_natChars n]
  simp only []
  rw [if_pos hn]

/-! ## Canonical-form master lemma -/

/-- "Parses as an IPv4 CIDR": `net.ParseCIDR` accepts it and the parsed
network's base address has a valid 4-byte representation (the family
test `main.go` uses). -/
def parsesAsIPv4CIDR (s : String) : Prop :=
  ∃ ipn : IPNet, parseCIDR s = some ipn ∧ (to4 ipn.ip).isSome

/-- "Parses as an IPv6 CIDR": `net.ParseCIDR` accepts it and the parsed
network's base address has no 4-byte representation. -/
def parsesAsIPv6CIDR (s : String) : Prop :=
  ∃ ipn : IPNet, parseCIDR s = some ipn ∧ to4 ipn.ip = none

theorem parseCIDR_inv (s0 : String) (ipn : IPNet) (hp : parseCIDR s0 = some ipn) :
    (∃ bs n, bs.length = 4 ∧ (∀ b ∈ bs, b ≤ 255) ∧ n ≤ 32 ∧
      ipn = ⟨andBytes bs (cidrMask n 32), cidrMask n 32⟩) ∨
    (∃ bs n, bs.length = 16 ∧ (∀ b ∈ bs, b < 256) ∧ n ≤ 128 ∧
      ipn = ⟨andBytes bs (cidrMask n 128), cidrMask n 128⟩) := by
  unfold parseCIDR at hp
  split at hp
  · simp at hp
  · rename_i addr maskPart heq
    cases h4 : parseIPv4chars addr with
    | some ip4 =>
      rw [h4] at hp
      simp only [] at hp
      cases hd : parseDecAll maskPart with
      | none => rw [hd] at hp; simp at hp
      | some n =>
        rw [hd] at hp
        simp only [] at hp
        split at hp
        · rename_i hn
          obtain rfl := (Option.some.inj hp).symm
          obtain ⟨hlen, hb⟩ := parseIPv4chars_spec addr ip4 h4
          exact Or.inl ⟨ip4, n, hlen, hb, hn, rfl⟩
        · simp at hp
    | none =>
      rw [h4] at hp
      simp only [] at hp
      cases h6 : parseIPv6chars addr with
      | none => rw [h6] at hp; simp at hp
      | some ip16 =>
        rw [h6] at hp
        simp only [] at hp
        cases hd : parseDecAll maskPart with
        | none => rw [hd] at hp; simp at hp
        | some n =>
          rw [hd] at hp
          simp only [] at hp
          split at hp
          · rename_i hn
            obtain rfl := (Option.some.inj hp).symm
            unfold parseIPv6chars at h6
            cases hv : v6FromToks (splitOnChar ':' addr) with
            | none => rw [hv] at h6; simp at h6
            | some gs =>
              rw [hv] at h6
              simp only [Option.map_some', Option.some.injEq] at h6
              obtain ⟨h8, hval⟩ := v6FromToks_spec _ gs hv
              refine Or.inr ⟨ip16, n, ?_, ?_, hn, rfl⟩
              · rw [← h6, groupsToBytes_length, h8]
              · rw [← h6]
                exact groupsToBytes_lt gs hval
          · simp at hp

/-- The canonical re-rendering of any `parseCIDR` result re-parses, in
the family given by `To4` on its base address, and the rendered text
contains a colon exactly in the IPv6 case. -/
theorem parseCIDR_canonical (s0 : String) (ipn : IPNet)
    (hp : parseCIDR s0 = some ipn) :
    ((to4 ipn.ip).isSome →
      parsesAsIPv4CIDR (ipNetString ipn) ∧ ':' ∉ (ipNetString ipn).data)
  ∧ (to4 ipn.ip = none →
      parsesAsIPv6CIDR (ipNetString ipn) ∧ ':' ∈ (ipNetString ipn).data) := by
  rcases parseCIDR_inv s0 ipn hp with ⟨bs, n, hlen, hb, hn, rfl⟩ | ⟨bs, n, hlen, hb, hn, rfl⟩
  · -- IPv4 parse path: the base is 4 bytes
    have hmlen : (cidrMask n 32).length = 4 := by
      rw [cidrMask32_eq n hn]; exact cidrMaskAux_length n 4
    have hiplen : (andBytes bs (cidrMask n 32)).length = 4 := by
      rw [andBytes_length, hlen, hmlen]
      simp
    have hible : ∀ b ∈ andBytes bs (cidrMask n 32), b ≤ 255 := andBytes_le _ _ hb
    have hstr := ipNetString_v4 (andBytes bs (cidrMask n 32)) n hiplen hn
    constructor
    · intro _
      constructor
      · refine ⟨⟨andBytes (andBytes bs (cidrMask n 32)) (cidrMask n 32), cidrMask n 32⟩,
            ?_, ?_⟩
        · rw [hstr]
          exact parseCIDR_quad _ n hiplen hible hn
        · have : (andBytes (andBytes bs (cidrMask n 32)) (cidrMask n 32)).length = 4 := by
            rw [andBytes_idem]; exact hiplen
          simp [to4_of_length4 _ this]
      · rw [hstr, cidr_data]
        intro hc
        rcases List.mem_append.mp hc with hq | hr
        · exact (quadChars_not_special _).2 hq
        · rcases List.mem_cons.mp hr with hcc | hnc
          · simp at hcc
          · exact (natChars_not_mem_special 10 n (by norm_num) (by norm_num)).1 hnc
    · intro hcontra
      rw [to4_of_length4 _ hiplen] at hcontra
      simp at hcontra
  · -- IPv6 parse path: the base is 16 bytes
    have hmlen : (cidrMask n 128).length = 16 := by
      rw [cidrMask128_eq n hn]; exact cidrMaskAux_length n 16
    have hiplen : (andBytes bs (cidrMask n 128)).length = 16 := by
      rw [andBytes_length, hlen, hmlen]
      simp
    have hible : ∀ b ∈ andBytes bs (cidrMask n 128), b ≤ 255 :=
      andBytes_le _ _ (fun x hx => by have := hb x hx; omega)
    have hstr := ipNetString_v6 (andBytes bs (cidrMask n 128)) n hiplen hn
    cases h4 : to4 (andBytes bs (cidrMask n 128)) with
    | some q =>
      rw [h4] at hstr
      simp only [] at hstr
      obtain ⟨hq, hqlen⟩ := to4_16_inv _ q hiplen h4
      have hqle : ∀ b ∈ q, b ≤ 255 := by
        intro b hbq
        rw [hq] at hbq
        exact hible b (List.mem_of_mem_drop hbq)
      constructor
      · intro _
        constructor
        · refine ⟨⟨andBytes q (cidrMask (n - 96) 32), cidrMask (n - 96) 32⟩, ?_, ?_⟩
          · rw [hstr]
            exact parseCIDR_quad q (n - 96) hqlen hqle (by omega)
          · have : (andBytes q (cidrMask (n - 96) 32)).length = 4 := by
              rw [andBytes_length, hqlen, cidrMask32_eq (n - 96) (by omega),
                cidrMaskAux_length]
              simp
            simp [to4_of_length4 _ this]
        · rw [hstr, cidr_data]
          intro hc
          rcases List.mem_append.mp hc with hqc | hr
          · exact (quadChars_not_special _).2 hqc
          · rcases List.mem_cons.mp hr with hcc | hnc
            · simp at hcc
            · exact (natChars_not_mem_special 10 (n - 96) (by norm_num) (by norm_num)).1 hnc
      · intro hcontra
        simp at hcontra
    | none =>
      rw [h4] at hstr
      simp only [] at hstr
      have hlt : ∀ b ∈ andBytes bs (cidrMask n 128), b < 256 :=
        fun b hbb => by have := hible b hbb; omega
      constructor
      · intro hcontra
        simp at hcontra
      · intro _
        constructor
        · refine ⟨⟨andBytes (andBytes bs (cidrMask n 128)) (cidrMask n 128), cidrMask n 128⟩,
              ?_, ?_⟩
          · rw [hstr]
            exact parseCIDR_ipv6str _ n hiplen hlt hn
          · rw [andBytes_idem, h4]
        · rw [hstr, cidr_data]
          apply List.mem_append.mpr
          left
          exact colon_mem_ipv6Chars _ (by rw [toGroups_length, hiplen])

/-! ## Classification helpers -/

theorem classifyV4_entry (net : IPNet) (iso : String) (ipn : IPNet)
    (hp : parseCIDR (ipNetString net) = some ipn) :
    classifyV4 (.entry net iso) =
      if iso = "CN" ∧ (to4 ipn.ip).isSome then some (ipNetString ipn) else none := by
  unfold classifyV4
  simp only []
  by_cases hiso : iso = "CN"
  · rw [if_pos hiso, hp]
    simp only []
    by_cases h4 : (to4 ipn.ip).isSome
    · rw [if_pos h4, if_pos ⟨hiso, h4⟩]
    · rw [if_neg h4, if_neg (by tauto)]
  · rw [if_neg hiso, if_neg (by tauto)]

theorem classifyV6_entry (net : IPNet) (iso : String) (ipn : IPNet)
    (hp : parseCIDR (ipNetString net) = some ipn) :
    classifyV6 (.entry net iso) =
      if iso = "CN" ∧ to4 ipn.ip = none then some (ipNetString ipn) else none := by
  unfold classifyV6
  simp only []
  by_cases hiso : iso = "CN"
  · rw [if_pos hiso, hp]
    simp only []
    by_cases h4 : (to4 ipn.ip).isSome
    · rw [if_pos h4, if_neg (by
        rintro ⟨-, hnone⟩
        rw [hnone] at h4
        simp at h4)]
    · rw [if_neg h4, if_pos ⟨hiso, by
        cases hc : to4 ipn.ip with
        | none => rfl
        | some q => rw [hc] at h4; simp at h4⟩]
  · rw [if_neg hiso, if_neg (by tauto)]

theorem classifyV4_inv (e : DBEntry) (s : String) (h : classifyV4 e = some s) :
    ∃ net iso ipn, e = .entry net iso ∧ iso = "CN" ∧
      parseCIDR (ipNetString net) = some ipn ∧ (to4 ipn.ip).isSome = true ∧
      s = ipNetString ipn := by
  cases e with
  | fail => simp [classifyV4] at h
  | entry net iso =>
    unfold classifyV4 at h
    simp only [] at h
    split at h
    · rename_i hiso
      split at h
      · simp at h
      · rename_i ipn hp
        split at h
        · rename_i h4
          exact ⟨net, iso, ipn, rfl, hiso, hp, h4, (Option.some.inj h).symm⟩
        · simp at h
    · simp at h

theorem classifyV6_inv (e : DBEntry) (s : String) (h : classifyV6 e = some s) :
    ∃ net iso ipn, e = .entry net iso ∧ iso = "CN" ∧
      parseCIDR (ipNetString net) = some ipn ∧ to4 ipn.ip = none ∧
      s = ipNetString ipn := by
  cases e with
  | fail => simp [classifyV6] at h
  | entry net iso =>
    unfold classifyV6 at h
    simp only [] at h
    split at h
    · rename_i hiso
      split at h
      · simp at h
      · rename_i ipn hp
        split at h
        · simp at h
        · rename_i h4
          refine ⟨net, iso, ipn, rfl, hiso, hp, ?_, (Option.some.inj h).symm⟩
          cases hc : to4 ipn.ip with
          | none => rfl
          | some q => rw [hc] at h4; simp at h4
    · simp at h

/-! ## Serializer text: fold as a join of lines -/

theorem string_foldl_hoist : ∀ (l : List String) (a : String),
    l.foldl (fun r s => r ++ s) a = a ++ l.foldl (fun r s => r ++ s) "" := by
  intro l
  induction l with
  | nil => intro a; simp
  | cons x t ih =>
    intro a
    rw [List.foldl_cons, List.foldl_cons, ih (a ++ x), ih ("" ++ x)]
    simp [String.append_assoc]

theorem string_join_cons (a : String) (l : List String) :
    String.join (a :: l) = a ++ String.join l := by
  show (a :: l).foldl (fun r s => r ++ s) "" = a ++ l.foldl (fun r s => r ++ s) ""
  rw [List.foldl_cons, show ("" ++ a) = a from by simp]
  exact string_foldl_hoist l a

theorem string_foldl_lines (items : List String) : ∀ s : String,
    items.foldl (fun acc n => acc ++ "        " ++ n ++ ",\n") s =
      s ++ String.join (items.map (fun e => "        " ++ e ++ ",\n")) := by
  induction items with
  | nil =>
    intro s
    simp [String.join]
  | cons x t ih =>
    intro s
    rw [List.foldl_cons, ih, List.map_cons, string_join_cons]
    simp [String.append_assoc]

/-! ## Claim theorems -/

/-- C1: for a database entry whose country record decodes and whose
network string re-parses (`hdec`), the entry is classified into an
output list if and only if its ISO code is exactly (case-sensitively)
`"CN"`; the emitted element is the canonical CIDR string of the
re-parsed network (base address masked by the prefix length, as
`parseCIDR` produces); an entry with a differing or empty code
contributes nothing to either list. -/
theorem c1_cn_classification (pre suf : List DBEntry) (net : IPNet) (iso : String)
    (ipn : IPNet) (hdec : parseCIDR (ipNetString net) = some ipn) :
    ((extractCN (pre ++ DBEntry.entry net iso :: suf)).1 =
        (extractCN pre).1 ++
          (if iso = "CN" ∧ (to4 ipn.ip).isSome then [ipNetString ipn] else []) ++
          (extractCN suf).1)
  ∧ ((extractCN (pre ++ DBEntry.entry net iso :: suf)).2 =
        (extractCN pre).2 ++
          (if iso = "CN" ∧ to4 ipn.ip = none then [ipNetString ipn] else []) ++
          (extractCN suf).2)
  ∧ (extractCN [DBEntry.entry net iso] ≠ (([], []) : List String × List String) ↔
      iso = "CN") := by
  have h4 := classifyV4_entry net iso ipn hdec
  have h6 := classifyV6_entry net iso ipn hdec
  refine ⟨?_, ?_, ?_⟩
  · simp only [extractCN_eq_filterMap, List.filterMap_append, List.filterMap_cons, h4]
    by_cases hc : iso = "CN" ∧ (to4 ipn.ip).isSome
    · rw [if_pos hc, if_pos hc]
      simp
    · rw [if_neg hc, if_neg hc]
      simp
  · simp only [extractCN_eq_filterMap, List.filterMap_append, List.filterMap_cons, h6]
    by_cases hc : iso = "CN" ∧ to4 ipn.ip = none
    · rw [if_pos hc, if_pos hc]
      simp
    · rw [if_neg hc, if_neg hc]
      simp
  · simp only [extractCN_eq_filterMap, List.filterMap_cons, List.filterMap_nil, h4, h6]
    constructor
    · intro hne
      by_contra hiso
      rw [if_neg (by tauto), if_neg (by tauto)] at hne
      simp at hne
    · intro hiso
      cases hto : to4 ipn.ip with
      | some q =>
        rw [if_pos ⟨hiso, rfl⟩]
        simp
      | none =>
        rw [if_neg (by simp), if_pos ⟨hiso, rfl⟩]
        simp

/-- C2: every element placed in the IPv4 list parses as an IPv4 CIDR and
every element of the IPv6 list parses as an IPv6 CIDR, the family being
decided by whether the parsed network's base address has a valid 4-byte
representation; the two lists are disjoint, for every input database. -/
theorem c2_family_invariant (entries : List DBEntry) :
    (∀ s ∈ (extractCN entries).1, parsesAsIPv4CIDR s)
  ∧ (∀ s ∈ (extractCN entries).2, parsesAsIPv6CIDR s)
  ∧ (∀ s ∈ (extractCN entries).1, s ∉ (extractCN entries).2) := by
  rw [extractCN_eq_filterMap]
  refine ⟨?_, ?_, ?_⟩
  · intro s hs
    obtain ⟨e, _, hce⟩ := List.mem_filterMap.mp hs
    obtain ⟨net, iso, ipn, rfl, _, hp, hp4, rfl⟩ := classifyV4_inv e s hce
    exact ((parseCIDR_canonical _ ipn hp).1 hp4).1
  · intro s hs
    obtain ⟨e, _, hce⟩ := List.mem_filterMap.mp hs
    obtain ⟨net, iso, ipn, rfl, _, hp, hp4, rfl⟩ := classifyV6_inv e s hce
    exact ((parseCIDR_canonical _ ipn hp).2 hp4).1
  · intro s hs hs6
    obtain ⟨e, _, hce⟩ := List.mem_filterMap.mp hs
    obtain ⟨net, iso, ipn, rfl, _, hp, hp4, rfl⟩ := classifyV4_inv e s hce
    obtain ⟨e2, _, hce2⟩ := List.mem_filterMap.mp hs6
    obtain ⟨net2, iso2, ipn2, rfl, _, hp2, hp42, heq⟩ := classifyV6_inv e2 _ hce2
    have hno : ':' ∉ (ipNetString ipn).data := ((parseCIDR_canonical _ ipn hp).1 hp4).2
    have hyes : ':' ∈ (ipNetString ipn2).data := ((parseCIDR_canonical _ ipn2 hp2).2 hp42).2
    rw [← heq] at hyes
    exact hno hyes

/-- C4: serializing an empty element list produces exactly the header
lines, an empty braced `elements` block, and the two closers, for every
set name and address-family tag; the instance with name `X` and type `Y`
is the literal text the specification displays. -/
theorem c4_empty_serialization :
    (∀ X Y : String, writeSetFileText X Y [] =
      "set " ++ X ++ " \x7b\n" ++ "    type " ++ Y ++ "\n" ++
        "    flags interval\n" ++ "    elements = \x7b\n" ++ "    \x7d\n\x7d\n")
  ∧ writeSetFileText "X" "Y" [] =
      "set X \x7b\n    type Y\n    flags interval\n    elements = \x7b\n    \x7d\n\x7d\n" := by
  constructor
  · intro X Y
    rfl
  · rfl

/-- C5: for every element list, the serialized text is the four exact
header lines followed by one eight-space-indented, comma-terminated
line per element in list order, then the two closers; serializing
`["1.2.3.0/24", "5.6.7.0/24"]` as `cn4`/`ipv4_addr` yields both element
lines in that order. -/
theorem c5_element_lines (name t : String) (items : List String)
    (_hne : items ≠ []) :
    (writeSetFileText name t items =
      "set " ++ name ++ " \x7b\n" ++ "    type " ++ t ++ "\n" ++
        "    flags interval\n" ++ "    elements = \x7b\n" ++
        String.join (items.map (fun e => "        " ++ e ++ ",\n")) ++
        "    \x7d\n\x7d\n")
  ∧ writeSetFileText "cn4" "ipv4_addr" ["1.2.3.0/24", "5.6.7.0/24"] =
      "set cn4 \x7b\n    type ipv4_addr\n    flags interval\n    elements = \x7b\n        1.2.3.0/24,\n        5.6.7.0/24,\n    \x7d\n\x7d\n" := by
  constructor
  · unfold writeSetFileText
    simp only [string_foldl_lines]
  · rfl

/-- C6: a per-entry failure — the record failing to decode, or the
network string failing to re-parse — skips exactly that entry: the
extraction of any database containing it equals the extraction with the
entry removed, so a malformed record never aborts the run and
contributes nothing to either list. -/
theorem c6_per_entry_skip (pre suf : List DBEntry) (e : DBEntry)
    (hbad : e = DBEntry.fail ∨
      ∃ net iso, e = DBEntry.entry net iso ∧ parseCIDR (ipNetString net) = none) :
    extractCN (pre ++ e :: suf) = extractCN (pre ++ suf) := by
  have h4 : classifyV4 e = none := by
    rcases hbad with rfl | ⟨net, iso, rfl, hp⟩
    · rfl
    · unfold classifyV4
      simp only []
      by_cases hiso : iso = "CN"
      · rw [if_pos hiso, hp]
      · rw [if_neg hiso]
  have h6 : classifyV6 e = none := by
    rcases hbad with rfl | ⟨net, iso, rfl, hp⟩
    · rfl
    · unfold classifyV6
      simp only []
      by_cases hiso : iso = "CN"
      · rw [if_pos hiso, hp]
      · rw [if_neg hiso]
  rw [extractCN_eq_filterMap, extractCN_eq_filterMap]
  simp [List.filterMap_append, List.filterMap_cons, h4, h6]

/-! ## Run-level helper lemmas and concrete worlds -/

deriving instance Fintype for Res

/-- A release whose sole asset is the `.mmdb` database file. -/
def okRelease : GitHubRelease :=
  ⟨"v1.0", [⟨"GeoLite2-Country.mmdb", "https://example.org/GeoLite2-Country.mmdb"⟩]⟩

/-- A one-entry database attributing `10.0.0.0/8` to CN. -/
def okDB : List DBEntry := [DBEntry.entry ⟨[10, 0, 0, 0], [255, 0, 0, 0]⟩ "CN"]

/-- A world in which every external call succeeds. -/
def okWorld : World :=
  ⟨Except.ok (200, Except.ok okRelease), true, Except.ok (200, true), true,
    Except.ok okDB, true, [], true, [], true⟩

/-- If the rule-set file for IPv4 was written, its content is the
serialization of the IPv4 extraction of the opened database. -/
theorem run_written4 (w : World) (db : List DBEntry) (t : String)
    (hdb : w.dbOpen = Except.ok db) (hw : (run w).written4 = some t) :
    t = writeSetFileText "cn4" "ipv4_addr" (extractCN db).1 := by
  unfold run writeSetFileRun at hw
  repeat' split at hw <;> try simp_all

/-- If the rule-set file for IPv6 was written, its content is the
serialization of the IPv6 extraction of the opened database. -/
theorem run_written6 (w : World) (db : List DBEntry) (t : String)
    (hdb : w.dbOpen = Except.ok db) (hw : (run w).written6 = some t) :
    t = writeSetFileText "cn6" "ipv6_addr" (extractCN db).2 := by
  unfold run writeSetFileRun at hw
  repeat' split at hw <;> try simp_all

/-- The asset loop realizes `find?` on the extension test. -/
theorem resolveDownloadURL_find (assets : List GitHubAsset) :
    resolveDownloadURL assets =
      ((assets.find? (fun a => filepathExt a.Name == ".mmdb")).map
        (fun a => a.BrowserDownloadURL)).getD "" := by
  induction assets with
  | nil => rfl
  | cons a rest ih =>
    unfold resolveDownloadURL
    by_cases h : filepathExt a.Name = ".mmdb"
    · rw [if_pos h, List.find?_cons_of_pos _ (by simp [h])]
      rfl
    · rw [if_neg h, List.find?_cons_of_neg _ (by simp [h]), ih]

/-- With no `.mmdb` asset the loop leaves the URL empty. -/
theorem resolveDownloadURL_none (assets : List GitHubAsset)
    (h : ∀ a ∈ assets, filepathExt a.Name ≠ ".mmdb") :
    resolveDownloadURL assets = "" := by
  induction assets with
  | nil => rfl
  | cons a rest ih =>
    unfold resolveDownloadURL
    rw [if_neg (h a (by simp))]
    exact ih (fun b hb => h b (by simp [hb]))

/-- C3: extraction and serialization are deterministic and
order-preserving: any two runs over the same database content that both
write a rule-set file write byte-identical text — the serialization of
the extraction — and the extracted elements appear in exactly the
database iteration order (`filterMap`, never re-sorted). -/
theorem c3_deterministic (w1 w2 : World) (db : List DBEntry) (t4 u4 t6 u6 : String)
    (h1 : w1.dbOpen = Except.ok db) (h2 : w2.dbOpen = Except.ok db)
    (hw1 : (run w1).written4 = some t4) (hw2 : (run w2).written4 = some u4)
    (hv1 : (run w1).written6 = some t6) (hv2 : (run w2).written6 = some u6) :
    (t4 = u4 ∧ t6 = u6)
  ∧ t4 = writeSetFileText "cn4" "ipv4_addr" (extractCN db).1
  ∧ t6 = writeSetFileText "cn6" "ipv6_addr" (extractCN db).2
  ∧ extractCN db = (db.filterMap classifyV4, db.filterMap classifyV6) := by
  have e1 := run_written4 w1 db t4 h1 hw1
  have e2 := run_written4 w2 db u4 h2 hw2
  have f1 := run_written6 w1 db t6 h1 hv1
  have f2 := run_written6 w2 db u6 h2 hv2
  exact ⟨⟨e1.trans e2.symm, f1.trans f2.symm⟩, e1, f1, extractCN_eq_filterMap db⟩

/-- Witness for C3 on the all-success world: both files are written and
carry the expected concrete text. -/
theorem c3_deterministic_witness :
    (("set cn4 \x7b\n    type ipv4_addr\n    flags interval\n    elements = \x7b\n        10.0.0.0/8,\n    \x7d\n\x7d\n" : String) =
        writeSetFileText "cn4" "ipv4_addr" (extractCN okDB).1)
  ∧ (("set cn6 \x7b\n    type ipv6_addr\n    flags interval\n    elements = \x7b\n    \x7d\n\x7d\n" : String) =
        writeSetFileText "cn6" "ipv6_addr" (extractCN okDB).2)
  ∧ extractCN okDB = (okDB.filterMap classifyV4, okDB.filterMap classifyV6) := by
  have h := c3_deterministic okWorld okWorld okDB
    "set cn4 \x7b\n    type ipv4_addr\n    flags interval\n    elements = \x7b\n        10.0.0.0/8,\n    \x7d\n\x7d\n"
    "set cn4 \x7b\n    type ipv4_addr\n    flags interval\n    elements = \x7b\n        10.0.0.0/8,\n    \x7d\n\x7d\n"
    "set cn6 \x7b\n    type ipv6_addr\n    flags interval\n    elements = \x7b\n    \x7d\n\x7d\n"
    "set cn6 \x7b\n    type ipv6_addr\n    flags interval\n    elements = \x7b\n    \x7d\n\x7d\n"
    rfl rfl (by decide) (by decide) (by decide) (by decide)
  exact ⟨h.2.1, h.2.2.1, h.2.2.2⟩

/-- C7: asset resolution selects the first asset in list order whose
name has the `.mmdb` extension (`find?` on the extension test); when the
release has no such asset, the run exits non-zero and the download
request is never attempted. -/
theorem c7_asset_resolution (assets : List GitHubAsset) (w : World) (st : Nat)
    (rel : GitHubRelease) (hmeta : w.metaResp = Except.ok (st, Except.ok rel))
    (hnone : ∀ a ∈ rel.Assets, filepathExt a.Name ≠ ".mmdb") :
    (resolveDownloadURL assets =
      ((assets.find? (fun a => filepathExt a.Name == ".mmdb")).map
        (fun a => a.BrowserDownloadURL)).getD "")
  ∧ (run w).exitCode = 1
  ∧ Ev.attemptDownload ∉ (run w).trace := by
  refine ⟨resolveDownloadURL_find assets, ?_⟩
  have hurl : resolveDownloadURL rel.Assets = "" := resolveDownloadURL_none rel.Assets hnone
  unfold run
  rw [hmeta]
  simp only []
  rw [hurl, if_pos rfl]
  exact ⟨rfl, by decide⟩

/-- A world whose release metadata decodes but offers no `.mmdb` asset. -/
def noMmdbWorld : World :=
  ⟨Except.ok (200, Except.ok ⟨"v1.0", [⟨"README.md", "https://example.org/README.md"⟩]⟩),
    true, Except.ok (200, true), true, Except.ok okDB, true, [], true, [], true⟩

/-- Witness for C7 on a release containing only a `README.md` asset. -/
theorem c7_asset_resolution_witness :
    (run noMmdbWorld).exitCode = 1 ∧ Ev.attemptDownload ∉ (run noMmdbWorld).trace :=
  (c7_asset_resolution [] noMmdbWorld 200
    ⟨"v1.0", [⟨"README.md", "https://example.org/README.md"⟩]⟩ rfl
    (by decide)).2

/-- Witness for C1 at a concrete `/8` network attributed to CN. -/
theorem c1_cn_classification_witness :
    parseCIDR (ipNetString ⟨[10, 0, 0, 0], [255, 0, 0, 0]⟩) =
        some ⟨[10, 0, 0, 0], [255, 0, 0, 0]⟩
  ∧ (extractCN [DBEntry.entry ⟨[10, 0, 0, 0], [255, 0, 0, 0]⟩ "CN"] ≠
        (([], []) : List String × List String) ↔ ("CN" : String) = "CN") :=
  ⟨by decide,
   (c1_cn_classification [] [] ⟨[10, 0, 0, 0], [255, 0, 0, 0]⟩ "CN"
      ⟨[10, 0, 0, 0], [255, 0, 0, 0]⟩ (by decide)).2.2⟩

/-- Witness for C2 on the one-entry CN database. -/
theorem c2_family_invariant_witness :
    parsesAsIPv4CIDR "10.0.0.0/8"
  ∧ ("10.0.0.0/8" : String) ∉ (extractCN okDB).2 :=
  ⟨(c2_family_invariant okDB).1 "10.0.0.0/8" (by decide),
   (c2_family_invariant okDB).2.2 "10.0.0.0/8" (by decide)⟩

/-- Witness for C5 at a one-element list. -/
theorem c5_element_lines_witness :
    writeSetFileText "cn4" "ipv4_addr" ["1.2.3.0/24"] =
      "set " ++ "cn4" ++ " \x7b\n" ++ "    type " ++ "ipv4_addr" ++ "\n" ++
        "    flags interval\n" ++ "    elements = \x7b\n" ++
        String.join ((["1.2.3.0/24"] : List String).map
          (fun e => "        " ++ e ++ ",\n")) ++
        "    \x7d\n\x7d\n" :=
  (c5_element_lines "cn4" "ipv4_addr" ["1.2.3.0/24"] (by decide)).1

/-- Witness for C6: appending a failing entry changes nothing. -/
theorem c6_per_entry_skip_witness :
    extractCN ([DBEntry.entry ⟨[1, 2, 3, 0], [255, 255, 255, 0]⟩ "CN"] ++
        DBEntry.fail :: []) =
      extractCN ([DBEntry.entry ⟨[1, 2, 3, 0], [255, 255, 255, 0]⟩ "CN"] ++ []) :=
  c6_per_entry_skip [DBEntry.entry ⟨[1, 2, 3, 0], [255, 255, 255, 0]⟩ "CN"] []
    DBEntry.fail (Or.inl rfl)

/-- The run result does not depend on the error results of the
`fmt.Fprintf` calls inside `writeSetFile`: the source discards them. -/
theorem run_writeErrs_invariant (w : World) (e4 e6 : List Bool) :
    run ⟨w.metaResp, w.createTmpOk, w.dlResp, w.renameOk, w.dbOpen,
      w.create4Ok, e4, w.create6Ok, e6, w.reloadOk⟩ = run w := by
  cases w
  rfl

/-- Every run either exits 0 or logs exactly one error, as its final
event, and exits 1. -/
theorem run_error_shape (w : World) :
    (run w).exitCode = 0 ∨
      ((run w).trace.count Ev.logError = 1
        ∧ (run w).trace.getLast? = some Ev.logError
        ∧ (run w).exitCode = 1) := by
  rcases w with ⟨mr, ct, dl, rn, db, c4, e4, c6, e6, rl⟩
  cases c4 <;> cases c6
  all_goals simp only [run, writeSetFileRun, reduceIte, Bool.false_eq_true, if_false]
  all_goals repeat' split
  all_goals ((try simp only []); decide)

/-- A world identical to `okWorld` except that every `fmt.Fprintf` call
in both `writeSetFile` invocations reports an error. -/
def badWriteWorld : World :=
  ⟨Except.ok (200, Except.ok okRelease), true, Except.ok (200, true), true,
    Except.ok okDB, true, [true, true, true, true, true], true,
    [true, true, true, true, true], true⟩

/-- C8 counterexample: every write call inside both `writeSetFile`
invocations fails, yet the process exits 0 and never logs an error —
the `fmt.Fprintf` error results are discarded by the source, so a
failure while writing a rule-set file is silently swallowed rather than
stage-fatal. -/
theorem c8_counterexample :
    (run badWriteWorld).exitCode = 0
  ∧ Ev.logError ∉ (run badWriteWorld).trace := by
  decide

/-- C8 (amended): a failing stage — metadata fetch, asset resolution,
download, file replace, database open, rule-set file creation, or
service reload — is logged exactly once, as the final event, and exits
with status 1; but the error results of the individual write calls
inside `writeSetFile` are not stage failures: the run result is
invariant under them. -/
theorem c8_stage_failures (w : World) (h : (run w).exitCode ≠ 0) :
    ((run w).trace.count Ev.logError = 1
      ∧ (run w).trace.getLast? = some Ev.logError
      ∧ (run w).exitCode = 1)
  ∧ run ⟨w.metaResp, w.createTmpOk, w.dlResp, w.renameOk, w.dbOpen,
        w.create4Ok, [true], w.create6Ok, [true], w.reloadOk⟩ = run w :=
  ⟨(run_error_shape w).resolve_left h, run_writeErrs_invariant w [true] [true]⟩

/-- A world whose rename of the downloaded database fails. -/
def failRenameWorld : World :=
  ⟨Except.ok (200, Except.ok okRelease), true, Except.ok (200, true), false,
    Except.ok okDB, true, [], true, [], true⟩

/-- Witness for the amended C8 on a failing-rename world. -/
theorem c8_stage_failures_witness :
    ((run failRenameWorld).trace.count Ev.logError = 1
      ∧ (run failRenameWorld).trace.getLast? = some Ev.logError
      ∧ (run failRenameWorld).exitCode = 1)
  ∧ run ⟨failRenameWorld.metaResp, failRenameWorld.createTmpOk,
        failRenameWorld.dlResp, failRenameWorld.renameOk, failRenameWorld.dbOpen,
        failRenameWorld.create4Ok, [true], failRenameWorld.create6Ok, [true],
        failRenameWorld.reloadOk⟩ = run failRenameWorld :=
  c8_stage_failures failRenameWorld (by decide)

/-- A world whose metadata response body fails to decode. -/
def badDecodeWorld : World :=
  ⟨Except.ok (200, Except.error ()), true, Except.ok (200, true), true,
    Except.ok okDB, true, [], true, [], true⟩

/-- C9 counterexample: on the early-fatal exit taken when the metadata
body fails to decode, the metadata response body was acquired but is
never released — `os.Exit(1)` terminates without running the deferred
`Close` calls. -/
theorem c9_counterexample :
    Ev.acquire Res.body1 ∈ (run badDecodeWorld).trace
  ∧ Ev.release Res.body1 ∉ (run badDecodeWorld).trace
  ∧ (run badDecodeWorld).exitCode = 1 := by
  decide

/-- C9 (amended): on the successful exit path every acquired resource is
released (acquire and release counts agree for every resource), and the
rule-set file handles opened inside `writeSetFile` are released on every
path on which they are acquired; the early-fatal paths, however, skip
the deferred releases of the handles `main` itself holds. -/
theorem c9_resource_release (w : World) :
    ((run w).exitCode = 0 →
      ∀ r : Res, (run w).trace.count (Ev.acquire r) =
        (run w).trace.count (Ev.release r))
  ∧ (∀ r : Res, r = Res.file4 ∨ r = Res.file6 →
      (run w).trace.count (Ev.acquire r) =
        (run w).trace.count (Ev.release r)) := by
  rcases w with ⟨mr, ct, dl, rn, db, c4, e4, c6, e6, rl⟩
  cases c4 <;> cases c6
  all_goals simp only [run, writeSetFileRun, reduceIte, Bool.false_eq_true, if_false]
  all_goals repeat' split
  all_goals ((try simp only []); decide)

/-- Witness for the amended C9 on the all-success world. -/
theorem c9_resource_release_witness :
    (run okWorld).exitCode = 0
  ∧ (run okWorld).trace.count (Ev.acquire Res.body1) =
      (run okWorld).trace.count (Ev.release Res.body1) :=
  ⟨by decide, (c9_resource_release okWorld).1 (by decide) Res.body1⟩

/-- C10: the metadata stage never inspects the HTTP status — the run is
invariant under it; a transport error or a body-decoding error is fatal
before the release tag is logged; a decoded body always reaches the tag
log regardless of status; and only the download stage enforces
status 200: a successful run forces the download status to be 200. -/
theorem c10_metadata_status_ignored (w : World) (st st' : Nat)
    (d : Except Unit GitHubRelease) :
    (run ⟨Except.ok (st, d), w.createTmpOk, w.dlResp, w.renameOk, w.dbOpen,
        w.create4Ok, w.write4Errs, w.create6Ok, w.write6Errs, w.reloadOk⟩ =
      run ⟨Except.ok (st', d), w.createTmpOk, w.dlResp, w.renameOk, w.dbOpen,
        w.create4Ok, w.write4Errs, w.create6Ok, w.write6Errs, w.reloadOk⟩)
  ∧ (w.metaResp = Except.error () →
      (run w).exitCode = 1 ∧ Ev.info InfoTag.tag ∉ (run w).trace)
  ∧ (w.metaResp = Except.ok (st, Except.error ()) →
      (run w).exitCode = 1 ∧ Ev.info InfoTag.tag ∉ (run w).trace)
  ∧ (∀ rel : GitHubRelease, w.metaResp = Except.ok (st, Except.ok rel) →
      Ev.info InfoTag.tag ∈ (run w).trace)
  ∧ ((run w).exitCode = 0 → ∀ s c, w.dlResp = Except.ok (s, c) → s = 200) := by
  refine ⟨rfl, ?_, ?_, ?_, ?_⟩
  · intro h
    unfold run
    rw [h]
    exact ⟨rfl,
      show Ev.info InfoTag.tag ∉ ([Ev.info InfoTag.fetching] ++ [Ev.logError])
        from by decide⟩
  · intro h
    unfold run
    rw [h]
    exact ⟨rfl,
      show Ev.info InfoTag.tag ∉
          ([Ev.info InfoTag.fetching] ++ [Ev.acquire Res.body1] ++ [Ev.logError])
        from by decide⟩
  · intro rel h
    rcases w with ⟨mr, ct, dl, rn, db, c4, e4, c6, e6, rl⟩
    subst h
    cases c4 <;> cases c6
    all_goals simp only [run, writeSetFileRun, reduceIte, Bool.false_eq_true, if_false]
    all_goals repeat' split
    all_goals ((try simp only []); decide)
  · intro h0 s c hdl
    rcases w with ⟨mr, ct, dl, rn, db, c4, e4, c6, e6, rl⟩
    cases c4 <;> cases c6
    all_goals simp only [run, writeSetFileRun, reduceIte, Bool.false_eq_true, if_false] at h0
    all_goals repeat' split at h0
    all_goals simp_all

/-- Witness for C10: a non-200 metadata status does not affect the run,
and the decoded tag is logged. -/
theorem c10_metadata_status_ignored_witness :
    (run ⟨Except.ok (404, Except.ok okRelease), true, Except.ok (200, true), true,
        Except.ok okDB, true, [], true, [], true⟩ =
      run ⟨Except.ok (200, Except.ok okRelease), true, Except.ok (200, true), true,
        Except.ok okDB, true, [], true, [], true⟩)
  ∧ Ev.info InfoTag.tag ∈ (run okWorld).trace :=
  ⟨(c10_metadata_status_ignored okWorld 404 200 (Except.ok okRelease)).1,
   (c10_metadata_status_ignored okWorld 200 200 (Except.ok okRelease)).2.2.2.1
      okRelease rfl⟩
